import Mathlib

/-!
# Verification of `centralTerminal.js` (browser terminal emulator)

A shallow embedding of the core of the terminal-emulator library:
the virtual file system (`VFile`/`VDirectory`/`VirtualOS`), the command
dispatcher (`TerminalLib`), and the addon session manager (`AddonExecutor`).

Modelling conventions:
* JS object references are modelled by allocation identifiers (`id : Nat`);
  `===` on nodes becomes equality of ids, and fresh allocation draws from a
  `nextId` counter carried in the state.  `this.cwd` (a reference into the
  tree) is stored as the id of the referenced node and dereferenced by
  searching the tree for that id (`findById`), which is faithful as long as
  ids are unique — an invariant proved below for all reachable states.
* A `VDirectory.children` object is an insertion-ordered association of
  property keys to nodes (`VChildren`).  (JavaScript enumerates integer-like
  keys first; none of the properties verified here depend on enumeration
  order of such keys.)
* String primitives used by the source (`trim`, `split('/')`, `join`,
  `toLowerCase`, `parseInt`, `startsWith`) are modelled over `List Char`.
* Output (`Terminal.print`/`printHtml`) is a growing list of lines; the DOM
  is out of scope.  A thrown JS exception is an `Option JsErr` result
  component; state mutations performed before the throw persist, as in JS.
-/

/-! ## JavaScript string primitives -/

/-- Whitespace recognised by JS `trim` (the ASCII cases). -/
def isJsSpace (c : Char) : Bool :=
  c == ' ' || c == '\t' || c == '\n' || c == '\r' || c == Char.ofNat 11 || c == Char.ofNat 12

def trimChars (l : List Char) : List Char :=
  ((l.dropWhile isJsSpace).reverse.dropWhile isJsSpace).reverse

/-- JS `String.prototype.trim`. -/
def jsTrim (s : String) : String := ⟨trimChars s.data⟩

/-- JS `s.startsWith(c)` for a single-character argument `c`. -/
def headIs (c : Char) (s : String) : Bool :=
  match s.data with
  | [] => false
  | d :: _ => d == c

/-- JS `s.toLowerCase()` (ASCII). -/
def jsToLower (s : String) : String := ⟨s.data.map Char.toLower⟩

/-- JS `s.split(c)` for a single-character separator. -/
def splitOnChar (c : Char) (s : String) : List String :=
  (s.data.splitOn c).map (fun l => ⟨l⟩)

/-- JS `parts.join(c)` for a single-character separator. -/
def joinWithChar (c : Char) (l : List String) : String :=
  ⟨List.intercalate [c] (l.map String.data)⟩

def digitsVal : List Char → Nat → Nat
  | [], acc => acc
  | c :: r, acc => digitsVal r (acc * 10 + (c.toNat - '0'.toNat))

/-- JS `parseInt(s, 10)`: skip whitespace, read an optional sign and then the
longest digit run; `none` (NaN) if there is no digit. -/
def jsParseInt (s : String) : Option Int :=
  let l := s.data.dropWhile isJsSpace
  let signed : Int × List Char :=
    match l with
    | '-' :: r => (-1, r)
    | '+' :: r => (1, r)
    | _ => (1, l)
  let ds := signed.2.takeWhile Char.isDigit
  if ds.isEmpty then none else some (signed.1 * (digitsVal ds 0 : Int))

/-! ## Tree node model (`VFile`, `VDirectory`) -/

mutual
/-- A node of the simulated file system.  `VFile(name, content, type)` or
`VDirectory(name)` from the source, with `id` standing for the JS object
reference. -/
inductive VNode where
  | file (id : Nat) (name : String) (content : String) (ftype : String)
  | dir (id : Nat) (name : String) (children : VChildren)
deriving DecidableEq
/-- The `children` object of a `VDirectory`: insertion-ordered keyed entries. -/
inductive VChildren where
  | nil
  | cons (key : String) (node : VNode) (rest : VChildren)
deriving DecidableEq
end

def nodeId : VNode → Nat
  | .file i _ _ _ => i
  | .dir i _ _ => i

def nodeName : VNode → String
  | .file _ n _ _ => n
  | .dir _ n _ => n

/-- JS `node instanceof VDirectory`. -/
def isDir : VNode → Bool
  | .file .. => false
  | .dir .. => true

/-- The children of a node (files have none). -/
def childrenOf : VNode → VChildren
  | .file .. => .nil
  | .dir _ _ cs => cs

/-- `VDirectory.getChild(name)` / `dir.children[name]` property lookup. -/
def getChild : VChildren → String → Option VNode
  | .nil, _ => none
  | .cons k c r, key => if k = key then some c else getChild r key

/-- JS property assignment `children[k] = v`: overwrite in place, or append a
new key at the end of insertion order. -/
def setChild : VChildren → String → VNode → VChildren
  | .nil, k, v => .cons k v .nil
  | .cons k' c r, k, v => if k' = k then .cons k v r else .cons k' c (setChild r k v)

/-- JS `delete children[k]`. -/
def removeChild : VChildren → String → VChildren
  | .nil, _ => .nil
  | .cons k' c r, k => if k' = k then r else .cons k' c (removeChild r k)

def keysOf : VChildren → List String
  | .nil => []
  | .cons k _ r => k :: keysOf r

mutual
def treeSize : VNode → Nat
  | .file .. => 1
  | .dir _ _ cs => 1 + treeSizeC cs
def treeSizeC : VChildren → Nat
  | .nil => 0
  | .cons _ c r => treeSize c + treeSizeC r
end

mutual
/-- All allocation ids occurring in a subtree, in depth-first order. -/
def idsOf : VNode → List Nat
  | .file i _ _ _ => [i]
  | .dir i _ cs => i :: idsOfC cs
def idsOfC : VChildren → List Nat
  | .nil => []
  | .cons _ c r => idsOf c ++ idsOfC r
end

mutual
/-- All nodes of a subtree (the subtree root included), depth-first. -/
def subnodes : VNode → List VNode
  | .file i n c t => [.file i n c t]
  | .dir i n cs => .dir i n cs :: subnodesC cs
def subnodesC : VChildren → List VNode
  | .nil => []
  | .cons _ c r => subnodes c ++ subnodesC r
end

def nodupKeys : List String → Bool
  | [] => true
  | k :: r => (!(r.contains k)) && nodupKeys r

mutual
/-- Structural well-formedness of a subtree: in every directory the property
keys are pairwise distinct and each child's `name` equals the key under which
its parent stores it. -/
def treeOk : VNode → Bool
  | .file .. => true
  | .dir _ _ cs => nodupKeys (keysOf cs) && childrenOk cs
def childrenOk : VChildren → Bool
  | .nil => true
  | .cons k c r => (nodeName c == k) && treeOk c && childrenOk r
end

/-! ## VirtualOS -/

/-- State of a `VirtualOS` instance.  `cwdId` is the id of the node referenced
by `this.cwd`; `nextId` is the allocation counter for fresh node references. -/
structure VOSState where
  root : VNode
  cwdId : Nat
  nextId : Nat
deriving DecidableEq

mutual
/-- Dereference a node id: depth-first search for the (in well-formed states
unique) node carrying `tid`.  Models following the stored JS reference. -/
def findById (tid : Nat) (n : VNode) : Option VNode :=
  if nodeId n = tid then some n
  else
    match n with
    | .file .. => none
    | .dir _ _ cs => findByIdC tid cs
def findByIdC (tid : Nat) : VChildren → Option VNode
  | .nil => none
  | .cons _ c r =>
    match findById tid c with
    | some x => some x
    | none => findByIdC tid r
end

mutual
/-- The inner `findParent(dir, target)` of `VirtualOS._getParent`: scan the
children in order; return `dir` when a child is (reference-)equal to the
target, else recurse into child directories. -/
def findParent (tid : Nat) (d : VNode) : Option VNode :=
  match d with
  | .file .. => none
  | .dir i nm cs => findParentC tid (VNode.dir i nm cs) cs
def findParentC (tid : Nat) (d : VNode) : VChildren → Option VNode
  | .nil => none
  | .cons _ c r =>
    if nodeId c = tid then some d
    else
      match (match c with | .dir .. => findParent tid c | .file .. => none) with
      | some f => some f
      | none => findParentC tid d r
end

/-- `VirtualOS._getParent(node)`: `null` for the root, else search from root. -/
def getParent (root : VNode) (n : VNode) : Option VNode :=
  if nodeId n = nodeId root then none else findParent (nodeId n) root

/-- The `for (let part of parts)` loop of `VirtualOS._resolvePath`. -/
def walkParts (root : VNode) : List String → VNode → Option VNode
  | [], cur => some cur
  | part :: rest, cur =>
    if part = ".." then
      walkParts root rest (match getParent root cur with | some p => p | none => cur)
    else if part = "." then walkParts root rest cur
    else
      match cur with
      | .dir _ _ cs =>
        match getChild cs part with
        | some c => walkParts root rest c
        | none => none
      | .file .. => none

/-- `VirtualOS._resolvePath(path)`. -/
def resolvePath (s : VOSState) (path : String) : Option VNode :=
  if path = "/" then some s.root
  else
    let parts := (splitOnChar '/' path).filter (fun p => p != "")
    match (if headIs '/' path then some s.root else findById s.cwdId s.root) with
    | some start => walkParts s.root parts start
    | none => none

/-- The `while (current && current !== this.root)` loop of
`VirtualOS._getFullPath`.  The fuel argument bounds the iteration count; the
tree size is always sufficient for nodes of the tree. -/
def fullPathLoop (root : VNode) : Nat → Option VNode → String → String
  | _, none, acc => acc
  | 0, some _, acc => acc
  | fuel+1, some c, acc =>
    if nodeId c = nodeId root then acc
    else fullPathLoop root fuel (getParent root c) ("/" ++ nodeName c ++ acc)

/-- `VirtualOS._getFullPath(directory)`. -/
def getFullPath (s : VOSState) (n : VNode) : String :=
  if nodeId n = nodeId s.root then "/"
  else
    let p := fullPathLoop s.root (treeSize s.root) (some n) ""
    if p = "" then "/" else p

mutual
/-- Apply `f` to the children of the (in well-formed states unique) directory
with id `tid`: models in-place mutation of the referenced `children` object. -/
def updateById (tid : Nat) (f : VChildren → VChildren) : VNode → VNode
  | .file i nm c t => .file i nm c t
  | .dir i nm cs => if i = tid then .dir i nm (f cs) else .dir i nm (updateByIdC tid f cs)
def updateByIdC (tid : Nat) (f : VChildren → VChildren) : VChildren → VChildren
  | .nil => .nil
  | .cons k c r => .cons k (updateById tid f c) (updateByIdC tid f r)
end

/-- `parts.pop()` of `path.split('/')` (the split is never empty, so this is
the final `/`-separated segment of the path). -/
def lastSegOf (path : String) : String := (splitOnChar '/' path).getLastD ""

/-- `parts.join('/') || '/'` after the pop: the parent path computed by the
create/delete operations. -/
def parentPathOf (path : String) : String :=
  let rest := (splitOnChar '/' path).dropLast
  if joinWithChar '/' rest = "" then "/" else joinWithChar '/' rest

/-- `VirtualOS.createFile(path, content, type)`. -/
def createFile (s : VOSState) (path content ftype : String) : VOSState × Bool :=
  let filename := lastSegOf path
  match resolvePath s (parentPathOf path) with
  | some (.dir did _ cs) =>
    match getChild cs filename with
    | some _ => (s, false)
    | none =>
      ({ s with
          root := updateById did
            (fun l => setChild l filename (.file s.nextId filename content ftype)) s.root,
          nextId := s.nextId + 1 }, true)
  | _ => (s, false)

/-- `VirtualOS.deleteFile(path)`. -/
def deleteFile (s : VOSState) (path : String) : VOSState × Bool :=
  let filename := lastSegOf path
  match resolvePath s (parentPathOf path) with
  | some (.dir did _ cs) =>
    match getChild cs filename with
    | some (.file ..) =>
      ({ s with root := updateById did (fun l => removeChild l filename) s.root }, true)
    | _ => (s, false)
  | _ => (s, false)

/-- `VirtualOS.createDirectory(path)` (note the `parts.pop() || path` fallback
for paths whose last segment is empty). -/
def createDirectory (s : VOSState) (path : String) : VOSState × Bool :=
  let popped := lastSegOf path
  let dirname := if popped = "" then path else popped
  match resolvePath s (parentPathOf path) with
  | some (.dir did _ cs) =>
    match getChild cs dirname with
    | some _ => (s, false)
    | none =>
      ({ s with
          root := updateById did (fun l => setChild l dirname (.dir s.nextId dirname .nil)) s.root,
          nextId := s.nextId + 1 }, true)
  | _ => (s, false)

def listEntries : VChildren → List String
  | .nil => []
  | .cons k c r => (match c with | .dir .. => k ++ "/" | .file .. => k) :: listEntries r

/-- `VirtualOS.listFiles(path)`. -/
def listFiles (s : VOSState) (path : String) : List String :=
  match resolvePath s path with
  | some (.dir _ _ cs) => listEntries cs
  | _ => []

/-- `VirtualOS.changeDir(path)`. -/
def changeDir (s : VOSState) (path : String) : VOSState × Bool :=
  match resolvePath s path with
  | some (.dir i _ _) => ({ s with cwdId := i }, true)
  | _ => (s, false)

/-- The state right after `new VDirectory('/')` / `this.cwd = this.root`. -/
def emptyVOS : VOSState := ⟨.dir 0 "/" .nil, 0, 1⟩

/-- The `VirtualOS` constructor result: `_initializeFileSystem()` applied to
the empty root. -/
def initVOS : VOSState :=
  (createFile
    (createDirectory
      (createDirectory
        (createDirectory
          (createDirectory emptyVOS "/C").1
          "/C/Users").1
        "/C/Program Files").1
      "/D").1
    "/readme.txt" "Welcome to the terminal!" "text").1

/-! ## Addon session manager (`AddonExecutor`) -/

/-- Record of an addon hook invocation (`onStart` / `onCommand` / `onStop`). -/
inductive HookEvent where
  | start (addon : String)
  | command (addon : String) (input : String)
  | stop (addon : String)
deriving DecidableEq

/-- A JS exception escaping an operation. -/
inductive JsErr where
  | typeError (msg : String)
  | fuelExhausted
deriving DecidableEq

def jsGet {α : Type} : List (String × α) → String → Option α
  | [], _ => none
  | (k, v) :: r, key => if k = key then some v else jsGet r key

def jsSet {α : Type} : List (String × α) → String → α → List (String × α)
  | [], k, v => [(k, v)]
  | (k', v') :: r, k, v => if k' = k then (k, v) :: r else (k', v') :: jsSet r k v

/-- State of an `AddonExecutor`.  Addons (base class `Addon`) are identified
by their `name`; `events` logs the hook invocations the executor performs.
`term` is the executor's own `this.term` property: the constructor sets only
`addons` and `activeAddon`, and no method ever assigns `term`, so it is
`none` in every state the program can construct. -/
structure ExecState where
  addons : List (String × String)
  activeAddon : Option String
  term : Option Unit
  events : List HookEvent
deriving DecidableEq

/-- `new AddonExecutor()`. -/
def initExec : ExecState := ⟨[], none, none, []⟩

/-- `AddonExecutor.registerAddon(addon)`. -/
def registerAddon (e : ExecState) (nm : String) : ExecState :=
  { e with addons := jsSet e.addons (jsToLower nm) nm }

/-- `AddonExecutor.stopAddon()`.  The stop hook is invoked and the active
reference cleared; then `this.term.print(...)` runs — but `this.term` is
`undefined`, so a `TypeError` is thrown (after the mutations). -/
def stopAddonE (e : ExecState) : ExecState × Option JsErr :=
  match e.activeAddon with
  | some a =>
    let e1 := { e with events := e.events ++ [HookEvent.stop a], activeAddon := none }
    match e1.term with
    | some _ => (e1, none)
    | none => (e1, some (JsErr.typeError "Cannot read properties of undefined (reading 'print')"))
  | none => (e, none)

/-! ## Terminal and dispatcher (`Terminal`, `TerminalLib`) -/

/-- Combined session state: terminal output lines (`Terminal.history`),
the file system, the addon executor, the dispatcher's `commandHistory`, and
the ambient clock string used by the `date` command. -/
structure Sys where
  termOut : List String
  vos : VOSState
  exec : ExecState
  commandHistory : List String
  now : String
deriving DecidableEq

/-- `Terminal.print(text)`. -/
def printLine (s : Sys) (t : String) : Sys := { s with termOut := s.termOut ++ [t] }

/-- `Terminal.printHtml(html)` (the markup string is recorded as a line). -/
def printHtml (s : Sys) (t : String) : Sys := { s with termOut := s.termOut ++ [t] }

def printLines (s : Sys) : List String → Sys
  | [] => s
  | l :: r => printLines (printLine s l) r

/-- `AddonExecutor.startAddon(name, term, vOS)` (the passed `term` is the
session terminal; the found addon's `onStart` is invoked). -/
def startAddonS (s : Sys) (name : String) : Sys :=
  match s.exec.activeAddon with
  | some _ => printLine s "An addon is already running. Please 'exit' first."
  | none =>
    match jsGet s.exec.addons (jsToLower name) with
    | some a =>
      { s with exec := { s.exec with activeAddon := some a, events := s.exec.events ++ [.start a] } }
    | none => printLine s ("Addon not found: " ++ name)

/-- `stopAddon` lifted to the session state. -/
def stopAddonS (s : Sys) : Sys × Option JsErr :=
  let r := stopAddonE s.exec
  ({ s with exec := r.1 }, r.2)

/-- `AddonExecutor.handleCommand(input)`: forwards to the active addon's
`onCommand`; the base class prints `[name]> input` to the terminal. -/
def handleCommandS (s : Sys) (input : String) : Sys :=
  match s.exec.activeAddon with
  | some a =>
    let s1 := { s with exec := { s.exec with events := s.exec.events ++ [.command a input] } }
    printLine s1 ("[" ++ a ++ "]> " ++ input)
  | none => s

/-- Dereference `this.cwd` (the default is unreachable: the stored reference
is always a node of the tree). -/
def cwdNode (v : VOSState) : VNode := (findById v.cwdId v.root).getD v.root

/-! ## Built-in commands -/

/-- Identifies a built-in handler closure (the `execute` function object). -/
inductive CmdTag where
  | pwd | ls | cd | cat | mkdir | touch | rm | echo | history | date | tree
  | clear | help | run | exit
deriving DecidableEq

/-- A `Command` registration record (`name`, `description`, `execute`). -/
structure CommandR where
  cname : String
  cdesc : String
  tag : CmdTag
deriving DecidableEq

def pwdC : CommandR := ⟨"pwd", "Print current working directory", .pwd⟩
def lsC : CommandR := ⟨"ls", "List files in current directory", .ls⟩
def cdC : CommandR := ⟨"cd", "Change directory", .cd⟩
def catC : CommandR := ⟨"cat", "Display file contents", .cat⟩
def mkdirC : CommandR := ⟨"mkdir", "Create a directory", .mkdir⟩
def touchC : CommandR := ⟨"touch", "Create an empty file", .touch⟩
def rmC : CommandR := ⟨"rm", "Delete a file", .rm⟩
def echoC : CommandR := ⟨"echo", "Print text", .echo⟩
def historyC : CommandR := ⟨"history", "Show command history. Use !<number> to rerun.", .history⟩
def dateC : CommandR := ⟨"date", "Displays the current date and time.", .date⟩
def treeC : CommandR := ⟨"tree", "Display the directory structure as a tree.", .tree⟩
def clearC : CommandR := ⟨"clear", "Clear terminal output", .clear⟩
def helpC : CommandR := ⟨"help", "List available commands", .help⟩
def runC : CommandR := ⟨"run", "Run a registered addon", .run⟩
def exitC : CommandR := ⟨"exit", "Exits the current addon.", .exit⟩

/-- The `addCommand` calls of `_registerDefaultCommands`, in order, with their
alias lists (`date` is also registered under `time`). -/
def registrationList : List (CommandR × List String) :=
  [(pwdC, []), (lsC, []), (cdC, []), (catC, []), (mkdirC, []), (touchC, []),
   (rmC, []), (echoC, []), (historyC, []), (dateC, ["time"]), (treeC, []),
   (clearC, []), (helpC, []), (runC, []), (exitC, [])]

/-- The `this.commands` dictionary after registration: each command under its
primary name and every alias, keys in insertion order. -/
def commandsMap : List (String × CommandR) :=
  registrationList.foldl
    (fun m rc => rc.2.foldl (fun m2 a => jsSet m2 a rc.1) (jsSet m rc.1.cname rc.1)) []

def splitLines (s : String) : List String := splitOnChar '\n' s

def pwdExec (s : Sys) : Sys × Option JsErr :=
  (printLine s (getFullPath s.vos (cwdNode s.vos)), none)

def lsExec (args : List String) (s : Sys) : Sys × Option JsErr :=
  let path := match args.head? with | some a => if a = "" then "." else a | none => "."
  let files := listFiles s.vos path
  (printLine s (if files.length > 0 then joinWithChar '\n' files else "Empty directory."), none)

def cdExec (args : List String) (s : Sys) : Sys × Option JsErr :=
  match args.head? with
  | some a =>
    if a = "" then (printLine s "cd: no such file or directory: ", none)
    else
      let r := changeDir s.vos a
      let s1 := { s with vos := r.1 }
      if r.2 then (s1, none) else (printLine s1 ("cd: no such file or directory: " ++ a), none)
  | none => (printLine s "cd: no such file or directory: ", none)

def catExec (args : List String) (s : Sys) : Sys × Option JsErr :=
  let a := (args.head?).getD ""
  let argDisp := (args.head?).getD "undefined"
  match resolvePath s.vos a with
  | some (.file _ nm content ftype) =>
    if ftype = "text" then (printLines s (splitLines content), none)
    else if ftype = "image" then
      (printHtml s ("<img src=\"" ++ content ++ "\" alt=\"" ++ nm ++
        "\" style=\"max-width: 100%; height: auto;\">"), none)
    else if ftype = "audio" then
      (printHtml s ("<audio controls src=\"" ++ content ++
        "\">Your browser does not support audio playback.</audio>"), none)
    else if ftype = "exe" then
      (printLine s ("[Executable] To run this, type: run " ++ content), none)
    else (printLine s ("Unsupported file type: " ++ ftype), none)
  | _ => (printLine s ("cat: No such file: " ++ argDisp), none)

def mkdirExec (args : List String) (s : Sys) : Sys × Option JsErr :=
  match args.head? with
  | some a =>
    if a = "" then (printLine s "mkdir: cannot create directory: ", none)
    else
      let r := createDirectory s.vos a
      let s1 := { s with vos := r.1 }
      if r.2 then (s1, none)
      else (printLine s1 ("mkdir: cannot create directory: " ++ a), none)
  | none => (printLine s "mkdir: cannot create directory: ", none)

def touchExec (args : List String) (s : Sys) : Sys × Option JsErr :=
  match args.head? with
  | some a =>
    if a = "" then (printLine s "Usage: touch <filename>", none)
    else
      let r := createFile s.vos a "" "text"
      let s1 := { s with vos := r.1 }
      if r.2 then (s1, none) else (printLine s1 ("touch: cannot create file: " ++ a), none)
  | none => (printLine s "Usage: touch <filename>", none)

def rmExec (args : List String) (s : Sys) : Sys × Option JsErr :=
  match args.head? with
  | some a =>
    if a = "" then (printLine s "Usage: rm <filename>", none)
    else
      let r := deleteFile s.vos a
      let s1 := { s with vos := r.1 }
      if r.2 then (s1, none)
      else (printLine s1 ("rm: cannot remove '" ++ a ++ "': No such file or directory"), none)
  | none => (printLine s "Usage: rm <filename>", none)

def echoExec (args : List String) (s : Sys) : Sys × Option JsErr :=
  (printLine s (joinWithChar ' ' args), none)

def historyLines (i : Nat) : List String → List String
  | [] => []
  | c :: r => (Nat.repr (i + 1) ++ ": " ++ c) :: historyLines (i + 1) r

def historyExec (s : Sys) : Sys × Option JsErr :=
  (printLines s (historyLines 0 s.commandHistory), none)

def dateExec (s : Sys) : Sys × Option JsErr := (printLine s s.now, none)

/-- `TerminalLib._printTreeRecursive`. -/
def treeGlyphLines (pre : String) : VChildren → List String
  | .nil => []
  | .cons _ c rest =>
    let isLast : Bool := match rest with | .nil => true | .cons .. => false
    let deco := if isLast then "└── " else "├── "
    let newPre := pre ++ (if isLast then "    " else "│   ")
    match c with
    | .dir _ nm cs => (pre ++ deco ++ nm ++ "/") :: (treeGlyphLines newPre cs ++ treeGlyphLines pre rest)
    | .file _ nm _ _ => (pre ++ deco ++ nm) :: treeGlyphLines pre rest

def treeExec (args : List String) (s : Sys) : Sys × Option JsErr :=
  let path := match args.head? with | some a => if a = "" then "." else a | none => "."
  match resolvePath s.vos path with
  | some (.dir i nm cs) =>
    let s1 := printLine s (getFullPath s.vos (.dir i nm cs))
    (printLines s1 (treeGlyphLines "" cs), none)
  | _ => (printLine s ("tree: '" ++ path ++ "' is not a directory."), none)

/-- `Terminal.clear()`: clears the rendered output and `Terminal.history`
(distinct from the dispatcher's `commandHistory`). -/
def clearExec (s : Sys) : Sys × Option JsErr := ({ s with termOut := [] }, none)

/-- `[...new Set(Object.values(this.commands))]`: first occurrences, in key
insertion order. -/
def dedupCommands : List CommandR → List CommandR → List CommandR
  | _, [] => []
  | seen, c :: r =>
    if seen.contains c then dedupCommands seen r else c :: dedupCommands (seen ++ [c]) r

def insertSortedCmd (c : CommandR) : List CommandR → List CommandR
  | [] => [c]
  | x :: r => if decide (c.cname < x.cname) then c :: x :: r else x :: insertSortedCmd c r

/-- `sort((a,b) => a.name.localeCompare(b.name))`, modelled as sorting by
code-unit order (the built-in names are plain ASCII, where both orders
agree). -/
def sortByName : List CommandR → List CommandR
  | [] => []
  | c :: r => insertSortedCmd c (sortByName r)

def padEnd (s : String) (n : Nat) : String :=
  ⟨s.data ++ List.replicate (n - s.data.length) ' '⟩

def helpText : String :=
  joinWithChar '\n'
    ((sortByName (dedupCommands [] (commandsMap.map (·.2)))).map
      (fun c => padEnd c.cname 15 ++ "- " ++ c.cdesc))

def helpExec (s : Sys) : Sys × Option JsErr := (printLine s helpText, none)

def runExec (args : List String) (s : Sys) : Sys × Option JsErr :=
  match args.head? with
  | some a =>
    if a = "" then (printLine s "Usage: run <addon-name>", none)
    else (startAddonS s a, none)
  | none => (printLine s "Usage: run <addon-name>", none)

def exitExec (s : Sys) : Sys × Option JsErr :=
  match s.exec.activeAddon with
  | none => (printLine s "No active addon to exit.", none)
  | some _ => stopAddonS s

def execCmd : CmdTag → List String → Sys → Sys × Option JsErr
  | .pwd, _, s => pwdExec s
  | .ls, args, s => lsExec args s
  | .cd, args, s => cdExec args s
  | .cat, args, s => catExec args s
  | .mkdir, args, s => mkdirExec args s
  | .touch, args, s => touchExec args s
  | .rm, args, s => rmExec args s
  | .echo, args, s => echoExec args s
  | .history, _, s => historyExec s
  | .date, _, s => dateExec s
  | .tree, args, s => treeExec args s
  | .clear, _, s => clearExec s
  | .help, _, s => helpExec s
  | .run, args, s => runExec args s
  | .exit, _, s => exitExec s

/-! ## Input tokenizer (`input.match(/(?:[^\s"]+|"[^"]*")+/g)`) -/

def isTokChar (c : Char) : Bool := !(isJsSpace c) && c != '"'

/-- One regex atom at the head of the input: a run of `[^\s"]` characters or a
double-quoted (and closed) substring. -/
def atomAt : List Char → Option (List Char × List Char)
  | [] => none
  | c :: cs =>
    if c = '"' then
      match cs.dropWhile (fun x => x != '"') with
      | '"' :: r2 => some ('"' :: cs.takeWhile (fun x => x != '"') ++ ['"'], r2)
      | _ => none
    else if isTokChar c then
      some ((c :: cs).takeWhile isTokChar, (c :: cs).dropWhile isTokChar)
    else none

def atomsGo : Nat → List Char → List Char → List Char × List Char
  | 0, acc, l => (acc, l)
  | f + 1, acc, l =>
    match atomAt l with
    | some (a, r) => atomsGo f (acc ++ a) r
    | none => (acc, l)

def lexGo : Nat → List Char → List String
  | 0, _ => []
  | f + 1, l =>
    match l with
    | [] => []
    | _ :: rest =>
      match atomAt l with
      | none => lexGo f rest
      | some (a, r) =>
        let t := atomsGo f a r
        String.mk t.1 :: lexGo f t.2

/-- All matches of the token regex, left to right (each match is a maximal
run of atoms; every atom consumes at least one character, so the length of
the input is sufficient fuel). -/
def lexTokens (s : String) : List String := lexGo (s.data.length + 1) s.data

/-- `.replace(/"/g, '')`. -/
def stripQuotes (t : String) : String := ⟨t.data.filter (fun c => c != '"')⟩

/-! ## The dispatcher (`TerminalLib.runCommand`) -/

/-- The part of `runCommand` after the history-recall branch and the history
append: addon routing, tokenizing, and command lookup/execution.  `input` is
already trimmed. -/
def execLine (s : Sys) (input : String) : Sys × Option JsErr :=
  match s.exec.activeAddon with
  | some _ =>
    if jsToLower input = "exit" then stopAddonS s
    else (handleCommandS s input, none)
  | none =>
    match lexTokens input with
    | [] => (s, none)
    | t0 :: rest =>
      let cmdName := jsToLower (stripQuotes t0)
      if cmdName = "" then (s, none)
      else
        let args := rest.map stripQuotes
        match jsGet commandsMap cmdName with
        | some c => execCmd c.tag args s
        | none => (printLine s ("Command not recognized: " ++ cmdName ++ "."), none)

/-- `this.commandHistory[parseInt(input.substring(1), 10) - 1]`: the history
entry addressed by a recall line (already trimmed); `none` for a NaN or
out-of-range index (a JS array read off the end is `undefined`). -/
def recallEntry (s : Sys) (input : String) : Option String :=
  match jsParseInt ⟨input.data.drop 1⟩ with
  | some v => if 0 ≤ v - 1 then s.commandHistory.get? (v - 1).toNat else none
  | none => none

/-- The history append of `runCommand`: push the (trimmed) input unless it
equals the immediately preceding entry. -/
def appendHistory (s : Sys) (input : String) : Sys :=
  if s.commandHistory.getLast? = some input then s
  else { s with commandHistory := s.commandHistory ++ [input] }

/-- `TerminalLib.runCommand(input)`, with fuel bounding the recursion depth
of the `!<n>` history-recall branch (the only recursive call).  JS recursion
is unbounded; fuel `0` yields the marker `fuelExhausted`, which is
unreachable whenever no stored history entry is itself a recall line. -/
def runCommandFuel : Nat → Sys → String → Sys × Option JsErr
  | 0, s, _ => (s, some JsErr.fuelExhausted)
  | f + 1, s, input0 =>
    let input := jsTrim input0
    if input = "" then (s, none)
    else if headIs '!' input then
      match recallEntry s input with
      | some cmd =>
        if cmd = "" then (printLine s "Invalid history index.", none)
        else runCommandFuel f (printLine s ("> " ++ cmd)) cmd
      | none => (printLine s "Invalid history index.", none)
    else
      execLine (appendHistory s input) input

/-- The dispatcher at depth 2, which suffices for every state whose history
entries are not recall lines (proved below: recall lines are never stored,
so a recalled line never recurses again). -/
def runCommand (s : Sys) (input : String) : Sys × Option JsErr :=
  runCommandFuel 2 s input

/-- A fresh session: empty terminal, the constructor-initialised file system,
a fresh executor, empty command history. -/
def initSys (now0 : String) : Sys := ⟨[], initVOS, initExec, [], now0⟩

/-! ## Specification-side auxiliary notions -/

/-- The node reached from `n` by following children keys along `p` (the
reference walk used to state resolution and round-trip properties). -/
def nodeAt : VNode → List String → Option VNode
  | n, [] => some n
  | .dir _ _ cs, k :: rest =>
    (match getChild cs k with
     | some c => nodeAt c rest
     | none => none)
  | .file .., _ :: _ => none

def renderSegs : List String → String
  | [] => ""
  | k :: r => "/" ++ k ++ renderSegs r

/-- The normalised absolute rendering of a root-relative segment list: the
root is `/`, other nodes are `/`-joined segment names from the root. -/
def renderAbsPath (l : List String) : String :=
  match l with
  | [] => "/"
  | _ :: _ => renderSegs l

/-- File-system states reachable from the constructor-initialised layout
through `createFile` and `createDirectory`. -/
inductive ReachableVOS : VOSState → Prop where
  | init : ReachableVOS initVOS
  | mkfile (s : VOSState) (p c t : String) : ReachableVOS s → ReachableVOS (createFile s p c t).1
  | mkdir (s : VOSState) (p : String) : ReachableVOS s → ReachableVOS (createDirectory s p).1

/-- Combined well-formedness invariant of a `VirtualOS` state: node ids are
globally distinct and below the allocation counter, and the tree keys are
well-formed (`treeOk`). -/
def vosInv (s : VOSState) : Prop :=
  (idsOf s.root).Nodup ∧ treeOk s.root = true ∧ ∀ i ∈ idsOf s.root, i < s.nextId

/-- Session state used as the concrete scenario for the history-recall
analyses: two previously executed lines. -/
def recallSys : Sys := { initSys "now" with commandHistory := ["foo", "bar"] }

/-- A reachable file-system state containing a child stored under the empty
key below `/C` (produced by `createFile("/C/")`). -/
def emptyKeyVOS : VOSState := (createFile initVOS "/C/" "" "text").1

/-! # Theorems -/

/-! ## Generic helper lemmas -/

theorem headIs_ne_empty {c : Char} {s : String} (h : headIs c s = true) : s ≠ "" := by
  intro he
  subst he
  simp [headIs] at h

theorem printLine_commandHistory (s : Sys) (t : String) :
    (printLine s t).commandHistory = s.commandHistory := rfl

theorem printLines_commandHistory (l : List String) :
    ∀ s : Sys, (printLines s l).commandHistory = s.commandHistory := by
  induction l with
  | nil => intro s; rfl
  | cons a r ih => intro s; simp [printLines, ih, printLine_commandHistory]

theorem head_dropWhile_false (p : Char → Bool) :
    ∀ (l : List Char) (c : Char), (l.dropWhile p).head? = some c → p c = false := by
  intro l
  induction l with
  | nil => intro c h; simp [List.dropWhile] at h
  | cons a r ih =>
    intro c h
    by_cases hp : p a
    · rw [List.dropWhile_cons_of_pos hp] at h
      exact ih c h
    · rw [List.dropWhile_cons_of_neg hp] at h
      simp at h
      subst h
      simpa using hp

theorem dropWhile_eq_self_of_head (p : Char → Bool) (l : List Char)
    (h : ∀ c, l.head? = some c → p c = false) : l.dropWhile p = l := by
  cases l with
  | nil => rfl
  | cons a r =>
    have := h a rfl
    simp [List.dropWhile, this]

theorem getLast?_of_dropWhile (p : Char → Bool) (l : List Char)
    (hne : l.dropWhile p ≠ []) : (l.dropWhile p).getLast? = l.getLast? := by
  induction l with
  | nil => simp at hne
  | cons a r ih =>
    by_cases hp : p a
    · rw [List.dropWhile_cons_of_pos hp] at hne ⊢
      rw [ih hne]
      rcases r with _ | ⟨b, r'⟩
      · simp [List.dropWhile] at hne
      · simp [List.getLast?_cons_cons]
    · rw [List.dropWhile_cons_of_neg hp]

theorem trimChars_idem (l : List Char) : trimChars (trimChars l) = trimChars l := by
  unfold trimChars
  set p := isJsSpace with hp
  set l1 := l.dropWhile p with hl1
  set l3 := l1.reverse.dropWhile p with hl3
  -- the trimmed result is `l3.reverse`; both its head and its last fail `p`
  have hstep1 : l3.reverse.dropWhile p = l3.reverse := by
    apply dropWhile_eq_self_of_head
    intro c hc
    rcases h3 : l3 with _ | ⟨x, r3⟩
    · rw [h3] at hc; simp at hc
    · have hne : l3 ≠ [] := by rw [h3]; simp
      have hlast : l3.getLast? = l1.reverse.getLast? := getLast?_of_dropWhile p l1.reverse hne
      have hhead : l3.reverse.head? = l3.getLast? := by
        simp [List.head?_reverse]
      have hrev : l1.reverse.getLast? = l1.head? := by
        simp [List.getLast?_reverse]
      rw [hhead, hlast, hrev] at hc
      exact head_dropWhile_false p l c hc
  rw [hstep1]
  have hstep2 : l3.reverse.reverse.dropWhile p = l3 := by
    rw [List.reverse_reverse]
    apply dropWhile_eq_self_of_head
    intro c hc
    exact head_dropWhile_false p l1.reverse c hc
  rw [hstep2]

theorem jsTrim_idem (s : String) : jsTrim (jsTrim s) = jsTrim s := by
  simp [jsTrim, trimChars_idem]

/-! ## C1: stopping an addon -/

/-- C1: the claim fails on the code.  In any executor state with an active
addon (all of which have `term = none`, since no code path assigns
`this.term`), `stopAddon()` does invoke the stop hook and clear the active
reference, but then dereferences the undefined `this.term` and raises a
`TypeError` instead of reporting return-to-main — so an exception does
propagate out of the addon session manager. -/
theorem C1_stopAddon_raises (e : ExecState) (a : String)
    (hact : e.activeAddon = some a) (hterm : e.term = none) :
    stopAddonE e =
      ({ e with events := e.events ++ [HookEvent.stop a], activeAddon := none },
       some (JsErr.typeError "Cannot read properties of undefined (reading 'print')")) := by
  simp only [stopAddonE, hact]
  simp [hterm]

/-- Evaluation of `stopAddon()` at a concrete reachable executor state. -/
theorem C1_stopAddon_raises_witness :
    stopAddonE ⟨[("demo", "Demo")], some "Demo", none, [HookEvent.start "Demo"]⟩ =
      (⟨[("demo", "Demo")], none, none, [HookEvent.start "Demo", HookEvent.stop "Demo"]⟩,
       some (JsErr.typeError "Cannot read properties of undefined (reading 'print')")) :=
  C1_stopAddon_raises ⟨[("demo", "Demo")], some "Demo", none, [HookEvent.start "Demo"]⟩ "Demo" rfl rfl

/-! ## C3: addon exclusivity -/

/-- C3: at most one addon is active at a time.  With `a` active, a second
`startAddon(b)` only prints the retry report (state, active addon and hook
log unchanged, so `b`'s start hook is not invoked); after `stopAddon()` the
manager is idle, and `startAddon(b)` then succeeds, invoking `b`'s start
hook. -/
theorem C3_addon_exclusivity (s : Sys) (a b bn : String)
    (hact : s.exec.activeAddon = some a)
    (hreg : jsGet s.exec.addons (jsToLower b) = some bn) :
    startAddonS s b = printLine s "An addon is already running. Please 'exit' first." ∧
    (startAddonS s b).exec.activeAddon = some a ∧
    (startAddonS s b).exec.events = s.exec.events ∧
    (stopAddonS s).1.exec.activeAddon = none ∧
    (startAddonS (stopAddonS s).1 b).exec.activeAddon = some bn ∧
    (startAddonS (stopAddonS s).1 b).exec.events =
      s.exec.events ++ [HookEvent.stop a, HookEvent.start bn] := by
  have hrej : startAddonS s b = printLine s "An addon is already running. Please 'exit' first." := by
    simp [startAddonS, hact]
  have hidle : (stopAddonS s).1.exec =
      { s.exec with events := s.exec.events ++ [HookEvent.stop a], activeAddon := none } := by
    simp only [stopAddonS, stopAddonE, hact]
    cases h : s.exec.term <;> simp
  refine ⟨hrej, ?_, ?_, ?_, ?_, ?_⟩
  · rw [hrej]; exact hact
  · rw [hrej]; rfl
  · rw [hidle]
  · simp [startAddonS, hidle, hreg]
  · simp [startAddonS, hidle, hreg]

/-- Evaluation of the exclusivity theorem at a concrete session: addon `A`
active, `b` registered as `B`. -/
theorem C3_addon_exclusivity_witness :
    (startAddonS { initSys "t" with
        exec := ⟨[("a", "A"), ("b", "B")], some "A", none, []⟩ } "b").exec.activeAddon = some "A" ∧
    (startAddonS (stopAddonS { initSys "t" with
        exec := ⟨[("a", "A"), ("b", "B")], some "A", none, []⟩ }).1 "b").exec.activeAddon = some "B" :=
  have h := C3_addon_exclusivity
    { initSys "t" with exec := ⟨[("a", "A"), ("b", "B")], some "A", none, []⟩ }
    "A" "b" "B" rfl (by decide)
  ⟨h.2.1, h.2.2.2.2.1⟩

/-! ## C4: creation on a colliding name -/

/-- C4 counterexample: the claim fails for `createDirectory` on a path whose
final segment is empty.  `emptyKeyVOS` is reachable (one `createFile("/C/")`
from the initial layout) and stores a child under the empty key below `/C`;
the path `"/C/"` has final segment `""`, which names that existing child of
the resolved parent — yet `createDirectory("/C/")` reports success and
mutates the tree, because the `parts.pop() || path` fallback names the new
directory `"/C/"` instead of `""`. -/
theorem C4_counterexample :
    (lastSegOf "/C/" = "" ∧
     (match resolvePath emptyKeyVOS (parentPathOf "/C/") with
      | some (.dir _ _ cs) => (getChild cs (lastSegOf "/C/")).isSome
      | _ => false) = true ∧
     (createDirectory emptyKeyVOS "/C/").2 = true ∧
     (createDirectory emptyKeyVOS "/C/").1 ≠ emptyKeyVOS) ∧
    ReachableVOS emptyKeyVOS :=
  ⟨by decide, ReachableVOS.mkfile initVOS "/C/" "" "text" ReachableVOS.init⟩

/-- C4 amended: for every state and every path whose final segment is
*non-empty* and names an existing child of the resolved parent directory,
`createFile` and `createDirectory` return failure and leave the state (hence
the parent's children mapping, its count and order) unchanged.  (With an
empty final segment, `createFile` still fails on a collision with the
empty-keyed child, but `createDirectory` falls back to the whole path string
as directory name and may succeed.) -/
theorem C4_amended (s : VOSState) (p c t : String)
    (hlast : lastSegOf p ≠ "")
    (hcol : (match resolvePath s (parentPathOf p) with
             | some (.dir _ _ cs) => (getChild cs (lastSegOf p)).isSome
             | _ => false) = true) :
    createFile s p c t = (s, false) ∧ createDirectory s p = (s, false) := by
  rcases hres : resolvePath s (parentPathOf p) with _ | n
  · rw [hres] at hcol; simp at hcol
  · rcases n with ⟨i, nm, co, ty⟩ | ⟨i, nm, cs⟩
    · rw [hres] at hcol; simp at hcol
    · rw [hres] at hcol
      simp only at hcol
      obtain ⟨x, hx⟩ := Option.isSome_iff_exists.mp hcol
      constructor
      · simp [createFile, hres, hx]
      · simp [createDirectory, hres, hlast, hx]

/-- Evaluation of the amended collision property at the initial layout and
path `/C/Users` (whose final segment collides with the pre-existing
`/C/Users`). -/
theorem C4_amended_witness :
    createFile initVOS "/C/Users" "" "text" = (initVOS, false) ∧
    createDirectory initVOS "/C/Users" = (initVOS, false) :=
  C4_amended initVOS "/C/Users" "" "text" (by decide) (by decide)

/-! ## C5: resolution failure points -/

/-- C5 counterexample: the claim fails for `.` and `..` segments.  Resolving
`/readme.txt/.` reaches the *file* `readme.txt` with the segment `.` still
to process, yet returns the file (not not-found); likewise
`/readme.txt/..` is resolved through the file to the root. -/
theorem C5_counterexample :
    resolvePath initVOS "/readme.txt/." =
      some (VNode.file 5 "readme.txt" "Welcome to the terminal!" "text") ∧
    resolvePath initVOS "/readme.txt/.." = some initVOS.root := by decide

/-- C5 amended: resolution fails the moment a *plain* segment (one that is
neither `.` nor `..`) is processed while the current node is not a
directory, or is a directory lacking that child; `.` and `..` segments are
processed even when the current node is a file. -/
theorem C5_amended (root cur : VNode) (part : String) (rest : List String)
    (hdot : part ≠ ".") (hdd : part ≠ "..") :
    (isDir cur = false → walkParts root (part :: rest) cur = none) ∧
    (∀ i nm cs, cur = VNode.dir i nm cs → getChild cs part = none →
      walkParts root (part :: rest) cur = none) := by
  constructor
  · intro hfile
    rcases cur with ⟨i, nm, co, ty⟩ | ⟨i, nm, cs⟩
    · simp [walkParts, hdot, hdd]
    · simp [isDir] at hfile
  · intro i nm cs hcur hchild
    subst hcur
    simp [walkParts, hdot, hdd, hchild]

/-- Evaluation of the amended failure property: a plain segment at a file
node fails immediately. -/
theorem C5_amended_witness :
    walkParts initVOS.root ["x"]
      (VNode.file 5 "readme.txt" "Welcome to the terminal!" "text") = none :=
  (C5_amended initVOS.root
    (VNode.file 5 "readme.txt" "Welcome to the terminal!" "text") "x" []
    (by decide) (by decide)).1 rfl

/-! ## C8: `..` at the root -/

/-- C8: resolving a `..` segment while the walk is at the root stays at the
root (the parent search declines the root), and in particular
`resolve("..")` with the cwd at the root returns the root. -/
theorem C8_parent_of_root (root : VNode) (rest : List String) (s : VOSState)
    (hcwd : s.cwdId = nodeId s.root) :
    walkParts root (".." :: rest) root = walkParts root rest root ∧
    resolvePath s ".." = some s.root := by
  constructor
  · simp [walkParts, getParent]
  · have h3 : (splitOnChar '/' "..").filter (fun p => p != "") = [".."] := by decide
    have hfind : findById s.cwdId s.root = some s.root := by
      rw [findById.eq_def, hcwd]
      simp
    simp [resolvePath, h3, hfind, walkParts, getParent, headIs]

/-- Evaluation at the constructor state (cwd is the root). -/
theorem C8_parent_of_root_witness : resolvePath initVOS ".." = some initVOS.root :=
  (C8_parent_of_root initVOS.root [] initVOS (by decide)).2

/-! ## C10: the empty path -/

/-- C10: resolving the empty string (or any path without a leading `/` all of
whose segments are empty) yields the current working directory, not
not-found; commands that resolve a missing argument as the empty path hence
operate on the cwd. -/
theorem C10_empty_path_is_cwd (s : VOSState) (p : String) (c : VNode)
    (habs : headIs '/' p = false)
    (hsegs : (splitOnChar '/' p).filter (fun x => x != "") = [])
    (hcwd : findById s.cwdId s.root = some c) :
    resolvePath s p = some c := by
  have hp : p ≠ "/" := by
    intro h; subst h; simp [headIs] at habs
  simp [resolvePath, hp, habs, hsegs, hcwd, walkParts]

/-- Evaluation at the constructor state: `resolve("")` is the cwd (root). -/
theorem C10_empty_path_is_cwd_witness : resolvePath initVOS "" = some initVOS.root :=
  C10_empty_path_is_cwd initVOS "" initVOS.root (by decide) (by decide) (by decide)

/-! ## C2: history recall (counterexample part) -/

/-- C2 counterexample: the claim fails on the code.  With history
`["foo", "bar"]`, dispatching `!1` echoes and replays `foo` — and the
replayed dispatch *appends `foo` to the command history again* (the recalled
line is re-stored because the recursive `runCommand` call performs the
normal history append). -/
theorem C2_counterexample :
    (runCommand recallSys "!1").1.commandHistory = ["foo", "bar", "foo"] := by decide

/-! ## Dispatcher lemmas: command execution never touches the history -/

theorem execCmd_commandHistory (tag : CmdTag) (args : List String) (s : Sys) :
    ((execCmd tag args s).1).commandHistory = s.commandHistory := by
  cases tag <;>
    (simp only [execCmd, pwdExec, lsExec, cdExec, catExec, mkdirExec, touchExec, rmExec,
        echoExec, historyExec, dateExec, treeExec, clearExec, helpExec, runExec, exitExec,
        startAddonS, stopAddonS, stopAddonE, handleCommandS] <;>
      (repeat' split) <;>
      simp [printLine, printHtml, printLines_commandHistory])

theorem execLine_commandHistory (s : Sys) (input : String) :
    ((execLine s input).1).commandHistory = s.commandHistory := by
  unfold execLine
  cases hact : s.exec.activeAddon with
  | some a =>
    by_cases hx : jsToLower input = "exit"
    · simp [hx, stopAddonS]
    · simp [hx, handleCommandS, hact, printLine]
  | none =>
    cases ht : lexTokens input with
    | nil => simp
    | cons t0 rest =>
      by_cases hc : jsToLower (stripQuotes t0) = ""
      · simp [hc]
      · simp only [hc, if_false]
        cases hg : jsGet commandsMap (jsToLower (stripQuotes t0)) with
        | some c => simp [hg, execCmd_commandHistory]
        | none => simp [hg, printLine]

/-! ## Dispatcher lemmas: unfolding the three branches of `runCommand` -/

theorem runCommandFuel_empty (f : Nat) (s : Sys) (input : String)
    (h : jsTrim input = "") : runCommandFuel (f + 1) s input = (s, none) := by
  unfold runCommandFuel
  simp [h]

theorem runCommandFuel_bang (f : Nat) (s : Sys) (input cmd : String)
    (htrim : jsTrim input = input) (hbang : headIs '!' input = true)
    (hentry : recallEntry s input = some cmd) (hcmdne : cmd ≠ "") :
    runCommandFuel (f + 1) s input = runCommandFuel f (printLine s ("> " ++ cmd)) cmd := by
  have hne : input ≠ "" := headIs_ne_empty hbang
  conv_lhs => rw [runCommandFuel.eq_def]
  simp only [htrim, if_neg hne, hbang, if_true, hentry, hcmdne, ite_false]

theorem runCommandFuel_nonbang (f : Nat) (s : Sys) (input : String)
    (hne : jsTrim input ≠ "") (hbang : headIs '!' (jsTrim input) = false) :
    runCommandFuel (f + 1) s input = execLine (appendHistory s (jsTrim input)) (jsTrim input) := by
  unfold runCommandFuel
  rw [if_neg hne, hbang]
  simp

theorem runCommandFuel_bang_invalid (f : Nat) (s : Sys) (input : String)
    (htrim : jsTrim input = input) (hbang : headIs '!' input = true)
    (hentry : recallEntry s input = none ∨ recallEntry s input = some "") :
    runCommandFuel (f + 1) s input = (printLine s "Invalid history index.", none) := by
  have hne : input ≠ "" := headIs_ne_empty hbang
  conv_lhs => rw [runCommandFuel.eq_def]
  rcases hentry with h | h <;> simp [htrim, hne, hbang, h]

/-- The dispatcher only ever looks at the trimmed input. -/
theorem runCommandFuel_trim (f : Nat) (s : Sys) (i : String) :
    runCommandFuel (f + 1) s i = runCommandFuel (f + 1) s (jsTrim i) := by
  unfold runCommandFuel
  rw [jsTrim_idem]

/-- On an input whose trimmed form is not a recall line, the dispatcher does
not recurse, so any positive fuel gives the same result. -/
theorem runCommandFuel_ge_one (s : Sys) (i : String) (f : Nat)
    (hb : headIs '!' (jsTrim i) = false) (hf : 1 ≤ f) :
    runCommandFuel f s i = runCommandFuel 1 s i := by
  cases f with
  | zero => omega
  | succ f' =>
    by_cases he : jsTrim i = ""
    · rw [runCommandFuel_empty f' s i he, runCommandFuel_empty 0 s i he]
    · rw [runCommandFuel_nonbang f' s i he hb, runCommandFuel_nonbang 0 s i he hb]

theorem appendHistory_cases (s : Sys) (i : String) :
    (appendHistory s i).commandHistory = s.commandHistory ∨
    (appendHistory s i).commandHistory = s.commandHistory ++ [i] := by
  unfold appendHistory
  split
  · exact Or.inl rfl
  · exact Or.inr rfl

/-! ## C2: history recall (amended part) -/

/-- C2 amended: dispatching a recall line `!<n>` that addresses stored entry
`cmd` echoes and replays `cmd` through dispatch; the `!<n>` line itself is
never stored, but the replayed dispatch performs the ordinary history
append, so the history afterwards is unchanged when `cmd` equals the
immediately preceding entry and is extended by exactly one copy of `cmd`
otherwise.  (Stored entries are trimmed, non-empty and never start with
`!`, which the hypotheses on `cmd` record.) -/
theorem C2_amended (s : Sys) (input cmd : String)
    (htrim : jsTrim input = input)
    (hbang : headIs '!' input = true)
    (hentry : recallEntry s input = some cmd)
    (hcmdne : cmd ≠ "")
    (hcmdtrim : jsTrim cmd = cmd)
    (hcmdbang : headIs '!' cmd = false) :
    (runCommand s input).1.commandHistory =
      if s.commandHistory.getLast? = some cmd then s.commandHistory
      else s.commandHistory ++ [cmd] := by
  unfold runCommand
  rw [show (2 : Nat) = 1 + 1 from rfl,
    runCommandFuel_bang 1 s input cmd htrim hbang hentry hcmdne]
  set s' := printLine s ("> " ++ cmd) with hs'
  rw [show (1 : Nat) = 0 + 1 from rfl,
    runCommandFuel_nonbang 0 s' cmd (by rw [hcmdtrim]; exact hcmdne)
      (by rw [hcmdtrim]; exact hcmdbang)]
  rw [execLine_commandHistory, hcmdtrim]
  have hsh : s'.commandHistory = s.commandHistory := rfl
  by_cases hl : s.commandHistory.getLast? = some cmd <;>
    simp [appendHistory, hsh, hl]

/-- Evaluation of the amended recall property: recalling the most recent
entry appends nothing (the duplicate-suppression case). -/
theorem C2_amended_witness :
    (runCommand recallSys "!2").1.commandHistory = ["foo", "bar"] := by
  have h := C2_amended recallSys "!2" "bar" (by decide) (by decide) (by decide)
    (by decide) (by decide) (by decide)
  rw [h]
  decide

/-! ## C9: bounded recall recursion -/

/-- C9: dispatch of a history-recall line always terminates.  In any state
whose stored entries are trimmed and do not begin with `!` (recall lines are
never appended — the recall branch returns before the append), the recursion
of `!<n>` is bounded: every fuel value `≥ 2` computes the same result as
depth 2, and the property that no stored entry begins with `!` is preserved
by every dispatch, so a recalled line is never itself a recall. -/
theorem C9_recall_bounded (s : Sys) (input : String) (f : Nat)
    (hinv : ∀ e ∈ s.commandHistory, jsTrim e = e ∧ headIs '!' e = false)
    (hf : 2 ≤ f) :
    runCommandFuel f s input = runCommand s input ∧
    ∀ e ∈ (runCommand s input).1.commandHistory, jsTrim e = e ∧ headIs '!' e = false := by
  have hmemtrim : ∀ cmd, recallEntry s (jsTrim input) = some cmd →
      jsTrim cmd = cmd ∧ headIs '!' cmd = false := by
    intro cmd h
    unfold recallEntry at h
    split at h
    · split at h
      · exact hinv cmd (List.get?_mem h)
      · exact absurd h (by simp)
    · exact absurd h (by simp)
  constructor
  · -- fuel-irrelevance
    unfold runCommand
    rcases Nat.exists_eq_add_of_le hf with ⟨k, hk⟩
    subst hk
    rw [show (2 : Nat) + k = (1 + k) + 1 from by ring, runCommandFuel_trim (1 + k) s input,
      show (2 : Nat) = 1 + 1 from rfl, runCommandFuel_trim 1 s input]
    set t := jsTrim input with ht
    have htt : jsTrim t = t := jsTrim_idem input
    by_cases he : t = ""
    · rw [runCommandFuel_empty (1 + k) s t (by rw [htt]; exact he),
        runCommandFuel_empty 1 s t (by rw [htt]; exact he)]
    · by_cases hb : headIs '!' t = true
      · rcases hcmd : recallEntry s t with _ | cmd
        · rw [runCommandFuel_bang_invalid (1 + k) s t htt hb (Or.inl hcmd),
            runCommandFuel_bang_invalid 1 s t htt hb (Or.inl hcmd)]
        · by_cases hce : cmd = ""
          · subst hce
            rw [runCommandFuel_bang_invalid (1 + k) s t htt hb (Or.inr hcmd),
              runCommandFuel_bang_invalid 1 s t htt hb (Or.inr hcmd)]
          · rw [runCommandFuel_bang (1 + k) s t cmd htt hb hcmd hce,
              runCommandFuel_bang 1 s t cmd htt hb hcmd hce]
            have hcp := hmemtrim cmd hcmd
            exact runCommandFuel_ge_one (printLine s ("> " ++ cmd)) cmd (1 + k)
              (by rw [hcp.1]; exact hcp.2) (by omega)
      · have hb' : headIs '!' t = false := by
          cases hx : headIs '!' t
          · rfl
          · exact absurd hx hb
        rw [runCommandFuel_nonbang (1 + k) s t (by rw [htt]; exact he) (by rw [htt]; exact hb'),
          runCommandFuel_nonbang 1 s t (by rw [htt]; exact he) (by rw [htt]; exact hb')]
  · -- the no-recall-entries invariant is preserved
    unfold runCommand
    rw [show (2 : Nat) = 1 + 1 from rfl, runCommandFuel_trim 1 s input]
    set t := jsTrim input with ht
    have htt : jsTrim t = t := jsTrim_idem input
    by_cases he : t = ""
    · rw [runCommandFuel_empty 1 s t (by rw [htt]; exact he)]
      exact hinv
    · by_cases hb : headIs '!' t = true
      · rcases hcmd : recallEntry s t with _ | cmd
        · rw [runCommandFuel_bang_invalid 1 s t htt hb (Or.inl hcmd)]
          exact hinv
        · by_cases hce : cmd = ""
          · subst hce
            rw [runCommandFuel_bang_invalid 1 s t htt hb (Or.inr hcmd)]
            exact hinv
          · rw [runCommandFuel_bang 1 s t cmd htt hb hcmd hce]
            have hcp := hmemtrim cmd hcmd
            rw [show (1 : Nat) = 0 + 1 from rfl,
              runCommandFuel_nonbang 0 (printLine s ("> " ++ cmd)) cmd
                (by rw [hcp.1]; exact hce) (by rw [hcp.1]; exact hcp.2)]
            intro e hmem
            rw [execLine_commandHistory] at hmem
            rcases appendHistory_cases (printLine s ("> " ++ cmd)) (jsTrim cmd) with hc | hc <;>
              rw [hc] at hmem
            · exact hinv e hmem
            · rcases List.mem_append.mp hmem with hm | hm
              · exact hinv e hm
              · have : e = jsTrim cmd := by simpa using hm
                subst this
                rw [hcp.1]
                exact hcp
      · have hb' : headIs '!' t = false := by
          cases hx : headIs '!' t
          · rfl
          · exact absurd hx hb
        rw [runCommandFuel_nonbang 1 s t (by rw [htt]; exact he) (by rw [htt]; exact hb')]
        intro e hmem
        rw [execLine_commandHistory] at hmem
        rcases appendHistory_cases s (jsTrim t) with hc | hc <;> rw [hc] at hmem
        · exact hinv e hmem
        · rcases List.mem_append.mp hmem with hm | hm
          · exact hinv e hm
          · have : e = jsTrim t := by simpa using hm
            subst this
            rw [htt]
            exact ⟨htt, hb'⟩

/-- Evaluation of the bounded-recursion property at the concrete two-entry
history: any larger fuel agrees with depth 2. -/
theorem C9_recall_bounded_witness :
    runCommandFuel 7 recallSys "!1" = runCommand recallSys "!1" :=
  (C9_recall_bounded recallSys "!1" 7 (by decide) (by norm_num)).1

/-! ## Tree membership and id lemmas -/

theorem strAppend_assoc (a b c : String) : a ++ b ++ c = a ++ (b ++ c) := by
  cases a with
  | mk da =>
    cases b with
    | mk db =>
      cases c with
      | mk dc =>
        show String.mk ((da ++ db) ++ dc) = String.mk (da ++ (db ++ dc))
        rw [List.append_assoc]

theorem strAppend_empty (a : String) : a ++ "" = a := by
  cases a with
  | mk da =>
    show String.mk (da ++ []) = String.mk da
    rw [List.append_nil]

theorem mem_subnodes_self : ∀ n : VNode, n ∈ subnodes n := by
  intro n
  cases n <;> simp [subnodes]

theorem mem_subnodes_dir (d : VNode) (i : Nat) (nm : String) (cs : VChildren) :
    d ∈ subnodes (.dir i nm cs) ↔ d = .dir i nm cs ∨ d ∈ subnodesC cs := by
  simp [subnodes]

theorem mem_subnodesC_cons (d : VNode) (k : String) (c : VNode) (r : VChildren) :
    d ∈ subnodesC (.cons k c r) ↔ d ∈ subnodes c ∨ d ∈ subnodesC r := by
  simp [subnodesC]

mutual
theorem idsOf_eq_map : ∀ n : VNode, idsOf n = (subnodes n).map nodeId
  | .file i nm c t => by simp [idsOf, subnodes, nodeId]
  | .dir i nm cs => by
    simp [idsOf, subnodes, nodeId, idsOfC_eq_map cs]
theorem idsOfC_eq_map : ∀ cs : VChildren, idsOfC cs = (subnodesC cs).map nodeId
  | .nil => by simp [idsOfC, subnodesC]
  | .cons k c r => by
    simp [idsOfC, subnodesC, idsOf_eq_map c, idsOfC_eq_map r]
end

theorem nodeId_mem_idsOf (n : VNode) : nodeId n ∈ idsOf n := by
  cases n <;> simp [idsOf, nodeId]

theorem mem_idsOf_of_mem_subnodes {r n : VNode} (h : n ∈ subnodes r) :
    nodeId n ∈ idsOf r := by
  rw [idsOf_eq_map]
  exact List.mem_map_of_mem nodeId h

mutual
theorem subnodes_trans : ∀ (r n m : VNode), m ∈ subnodes n → n ∈ subnodes r → m ∈ subnodes r
  | .file i nm c t, n, m => by
    intro hmn hnr
    simp [subnodes] at hnr
    subst hnr
    exact hmn
  | .dir i nm cs, n, m => by
    intro hmn hnr
    rw [mem_subnodes_dir] at hnr ⊢
    rcases hnr with h | h
    · subst h
      rw [← mem_subnodes_dir]
      exact hmn
    · exact Or.inr (subnodesC_trans cs n m hmn h)
theorem subnodesC_trans : ∀ (cs : VChildren) (n m : VNode),
    m ∈ subnodes n → n ∈ subnodesC cs → m ∈ subnodesC cs
  | .nil, n, m => by
    intro _ hnr
    simp [subnodesC] at hnr
  | .cons k c r, n, m => by
    intro hmn hnr
    rw [mem_subnodesC_cons] at hnr ⊢
    rcases hnr with h | h
    · exact Or.inl (subnodes_trans c n m hmn h)
    · exact Or.inr (subnodesC_trans r n m hmn h)
end

theorem getChild_mem_subnodesC : ∀ (cs : VChildren) (k : String) (c : VNode),
    getChild cs k = some c → c ∈ subnodesC cs
  | .nil, k, c => by simp [getChild]
  | .cons k' c' r, k, c => by
    intro h
    unfold getChild at h
    rw [mem_subnodesC_cons]
    by_cases hk : k' = k
    · rw [if_pos hk] at h
      simp at h
      subst h
      exact Or.inl (mem_subnodes_self _)
    · rw [if_neg hk] at h
      exact Or.inr (getChild_mem_subnodesC r k c h)

theorem child_mem_subnodes {d c : VNode} {k : String}
    (h : getChild (childrenOf d) k = some c) : c ∈ subnodes d := by
  cases d with
  | file i nm co t => simp [childrenOf, getChild] at h
  | dir i nm cs =>
    rw [mem_subnodes_dir]
    exact Or.inr (getChild_mem_subnodesC cs k c h)

mutual
theorem idsOf_sublist : ∀ (r n : VNode), n ∈ subnodes r → List.Sublist (idsOf n) (idsOf r)
  | .file i nm c t, n => by
    intro h
    simp [subnodes] at h
    subst h
    exact List.Sublist.refl _
  | .dir i nm cs, n => by
    intro h
    rw [mem_subnodes_dir] at h
    rcases h with h | h
    · subst h
      exact List.Sublist.refl _
    · exact (idsOfC_sublist cs n h).trans (by simp [idsOf])
theorem idsOfC_sublist : ∀ (cs : VChildren) (n : VNode), n ∈ subnodesC cs → List.Sublist (idsOf n) (idsOfC cs)
  | .nil, n => by
    intro h
    simp [subnodesC] at h
  | .cons k c r, n => by
    intro h
    rw [mem_subnodesC_cons] at h
    rcases h with h | h
    · exact (idsOf_sublist c n h).trans (by simp [idsOfC])
    · exact (idsOfC_sublist r n h).trans (by simp [idsOfC])
end

theorem nodup_idsOf_subnode {r n : VNode} (hr : (idsOf r).Nodup) (h : n ∈ subnodes r) :
    (idsOf n).Nodup :=
  (idsOf_sublist r n h).nodup hr

theorem eq_of_same_id {r a b : VNode} (hr : (idsOf r).Nodup)
    (ha : a ∈ subnodes r) (hb : b ∈ subnodes r) (hid : nodeId a = nodeId b) : a = b := by
  have hmap : ((subnodes r).map nodeId).Nodup := by rw [← idsOf_eq_map]; exact hr
  exact List.inj_on_of_nodup_map hmap ha hb hid

/-! ## Well-formedness propagation -/

theorem childrenOk_getChild : ∀ (cs : VChildren) (k : String) (c : VNode),
    childrenOk cs = true → getChild cs k = some c → nodeName c = k ∧ treeOk c = true
  | .nil, k, c => by simp [getChild]
  | .cons k' c' r, k, c => by
    intro hok h
    unfold childrenOk at hok
    simp only [Bool.and_eq_true, beq_iff_eq] at hok
    unfold getChild at h
    by_cases hk : k' = k
    · rw [if_pos hk] at h
      simp at h
      subst h
      exact ⟨hk ▸ hok.1.1, hok.1.2⟩
    · rw [if_neg hk] at h
      exact childrenOk_getChild r k c hok.2 h

mutual
theorem treeOk_subnode : ∀ (r n : VNode), treeOk r = true → n ∈ subnodes r → treeOk n = true
  | .file i nm c t, n => by
    intro hok h
    simp [subnodes] at h
    subst h
    exact hok
  | .dir i nm cs, n => by
    intro hok h
    rw [mem_subnodes_dir] at h
    rcases h with h | h
    · subst h
      exact hok
    · unfold treeOk at hok
      simp only [Bool.and_eq_true] at hok
      exact treeOkC_subnode cs n hok.2 h
theorem treeOkC_subnode : ∀ (cs : VChildren) (n : VNode),
    childrenOk cs = true → n ∈ subnodesC cs → treeOk n = true
  | .nil, n => by
    intro _ h
    simp [subnodesC] at h
  | .cons k c r, n => by
    intro hok h
    unfold childrenOk at hok
    simp only [Bool.and_eq_true] at hok
    rw [mem_subnodesC_cons] at h
    rcases h with h | h
    · exact treeOk_subnode c n hok.1.2 h
    · exact treeOkC_subnode r n hok.2 h
end

/-! ## `findById` correctness -/

mutual
theorem findById_sound : ∀ (tid : Nat) (n r : VNode),
    findById tid n = some r → r ∈ subnodes n ∧ nodeId r = tid
  | tid, n, r => by
    intro h
    unfold findById at h
    by_cases hid : nodeId n = tid
    · rw [if_pos hid] at h
      simp at h
      subst h
      exact ⟨mem_subnodes_self n, hid⟩
    · rw [if_neg hid] at h
      cases hn : n with
      | file i nm c t => rw [hn] at h; simp at h
      | dir i nm cs =>
        rw [hn] at h
        obtain ⟨hmem, hr⟩ := findByIdC_sound tid cs r h
        exact ⟨by rw [mem_subnodes_dir]; exact Or.inr hmem, hr⟩
theorem findByIdC_sound : ∀ (tid : Nat) (cs : VChildren) (r : VNode),
    findByIdC tid cs = some r → r ∈ subnodesC cs ∧ nodeId r = tid
  | tid, .nil, r => by simp [findByIdC]
  | tid, .cons k c rest, r => by
    intro h
    unfold findByIdC at h
    rw [mem_subnodesC_cons]
    cases hc : findById tid c with
    | some x =>
      rw [hc] at h
      simp at h
      subst h
      obtain ⟨hm, hi⟩ := findById_sound tid c _ hc
      exact ⟨Or.inl hm, hi⟩
    | none =>
      rw [hc] at h
      obtain ⟨hm, hi⟩ := findByIdC_sound tid rest r h
      exact ⟨Or.inr hm, hi⟩
end

mutual
theorem findById_isSome : ∀ (tid : Nat) (n : VNode),
    tid ∈ idsOf n → (findById tid n).isSome = true
  | tid, n => by
    intro h
    unfold findById
    by_cases hid : nodeId n = tid
    · rw [if_pos hid]; rfl
    · rw [if_neg hid]
      cases hn : n with
      | file i nm c t =>
        rw [hn] at h hid
        simp [idsOf] at h
        simp [nodeId] at hid
        exact absurd h.symm hid
      | dir i nm cs =>
        rw [hn] at h hid
        simp [idsOf] at h
        simp [nodeId] at hid
        rcases h with h | h
        · exact absurd h.symm hid
        · exact findByIdC_isSome tid cs h
theorem findByIdC_isSome : ∀ (tid : Nat) (cs : VChildren),
    tid ∈ idsOfC cs → (findByIdC tid cs).isSome = true
  | tid, .nil => by simp [idsOfC]
  | tid, .cons k c rest => by
    intro h
    unfold findByIdC
    simp [idsOfC] at h
    cases hc : findById tid c with
    | some x => rfl
    | none =>
      rcases h with h | h
      · have := findById_isSome tid c h
        rw [hc] at this
        simp at this
      · exact findByIdC_isSome tid rest h
end

theorem findById_eq {root c : VNode} (hids : (idsOf root).Nodup)
    (hc : c ∈ subnodes root) : findById (nodeId c) root = some c := by
  have hmem : nodeId c ∈ idsOf root := mem_idsOf_of_mem_subnodes hc
  have hsome := findById_isSome (nodeId c) root hmem
  cases hr : findById (nodeId c) root with
  | none => rw [hr] at hsome; simp at hsome
  | some r =>
    obtain ⟨hm, hi⟩ := findById_sound (nodeId c) root r hr
    rw [eq_of_same_id hids hm hc hi]

/-! ## `nodeAt` membership -/

theorem nodeAt_mem : ∀ (ps : List String) (r n : VNode), nodeAt r ps = some n → n ∈ subnodes r := by
  intro ps
  induction ps with
  | nil =>
    intro r n h
    simp [nodeAt] at h
    subst h
    exact mem_subnodes_self r
  | cons k rest ih =>
    intro r n h
    cases r with
    | file i nm c t => simp [nodeAt] at h
    | dir i nm cs =>
      unfold nodeAt at h
      cases hg : getChild cs k with
      | none => rw [hg] at h; simp at h
      | some c =>
        rw [hg] at h
        have h2 : c ∈ subnodes (VNode.dir i nm cs) := by
          rw [mem_subnodes_dir]
          exact Or.inr (getChild_mem_subnodesC cs k c hg)
        exact subnodes_trans _ c n (ih c n h) h2

theorem nodeAt_append : ∀ (p q : List String) (n : VNode),
    nodeAt n (p ++ q) = (nodeAt n p).bind (fun m => nodeAt m q) := by
  intro p
  induction p with
  | nil => intro q n; simp [nodeAt]
  | cons k rest ih =>
    intro q n
    cases n with
    | file i nm c t => simp [nodeAt]
    | dir i nm cs =>
      show (match getChild cs k with
            | some c => nodeAt c (rest ++ q)
            | none => none) =
          (match getChild cs k with
            | some c => nodeAt c rest
            | none => none).bind (fun m => nodeAt m q)
      cases getChild cs k with
      | none => rfl
      | some c => exact ih q c

/-! ## `findParent` correctness -/

theorem findParentC_nil (tid : Nat) (d : VNode) : findParentC tid d .nil = none := rfl

theorem findParentC_cons (tid : Nat) (d : VNode) (k : String) (c : VNode) (r : VChildren) :
    findParentC tid d (.cons k c r) =
      if nodeId c = tid then some d
      else
        match findParent tid c with
        | some f => some f
        | none => findParentC tid d r := by
  cases c <;> rfl

mutual
theorem findParent_id_mem : ∀ (tid : Nat) (d p : VNode),
    findParent tid d = some p → tid ∈ idsOf d
  | tid, d, p => by
    intro h
    cases d with
    | file i nm c t => simp [findParent] at h
    | dir i nm cs =>
      unfold findParent at h
      simp [idsOf]
      exact Or.inr (findParentC_id_mem tid (VNode.dir i nm cs) cs p h)
theorem findParentC_id_mem : ∀ (tid : Nat) (d : VNode) (cs : VChildren) (p : VNode),
    findParentC tid d cs = some p → tid ∈ idsOfC cs
  | tid, d, .nil, p => by simp [findParentC_nil]
  | tid, d, .cons k c rest, p => by
    intro h
    rw [findParentC_cons] at h
    simp [idsOfC]
    by_cases hid : nodeId c = tid
    · left
      rw [← hid]
      exact nodeId_mem_idsOf c
    · rw [if_neg hid] at h
      cases hin : findParent tid c with
      | some f =>
        rw [hin] at h
        exact Or.inl (findParent_id_mem tid c f hin)
      | none =>
        rw [hin] at h
        exact Or.inr (findParentC_id_mem tid d rest p h)
end

mutual
theorem findParent_mem : ∀ (tid : Nat) (d p : VNode),
    findParent tid d = some p → p ∈ subnodes d
  | tid, d, p => by
    intro h
    cases d with
    | file i nm c t => simp [findParent] at h
    | dir i nm cs =>
      unfold findParent at h
      rcases findParentC_mem tid (VNode.dir i nm cs) cs p h with h1 | h1
      · rw [h1]
        exact mem_subnodes_self _
      · rw [mem_subnodes_dir]
        exact Or.inr h1
theorem findParentC_mem : ∀ (tid : Nat) (d : VNode) (cs : VChildren) (p : VNode),
    findParentC tid d cs = some p → p = d ∨ p ∈ subnodesC cs
  | tid, d, .nil, p => by simp [findParentC_nil]
  | tid, d, .cons k c rest, p => by
    intro h
    rw [findParentC_cons] at h
    by_cases hid : nodeId c = tid
    · rw [if_pos hid] at h
      simp at h
      exact Or.inl h.symm
    · rw [if_neg hid] at h
      cases hin : findParent tid c with
      | some f =>
        rw [hin] at h
        simp at h
        subst h
        rw [mem_subnodesC_cons]
        exact Or.inr (Or.inl (findParent_mem tid c _ hin))
      | none =>
        rw [hin] at h
        rcases findParentC_mem tid d rest p h with h1 | h1
        · exact Or.inl h1
        · rw [mem_subnodesC_cons]
          exact Or.inr (Or.inr h1)
end

theorem findParentC_finds : ∀ (cs : VChildren) (d c : VNode) (k : String),
    (idsOfC cs).Nodup → getChild cs k = some c →
    findParentC (nodeId c) d cs = some d
  | .nil, d, c, k => by simp [getChild]
  | .cons k' c' rest, d, c, k => by
    intro hnd hg
    unfold getChild at hg
    rw [findParentC_cons]
    by_cases hk : k' = k
    · rw [if_pos hk] at hg
      simp at hg
      subst hg
      simp
    · rw [if_neg hk] at hg
      have hcm : nodeId c ∈ idsOfC rest := by
        rw [idsOfC_eq_map]
        exact List.mem_map_of_mem nodeId (getChild_mem_subnodesC rest k c hg)
      unfold idsOfC at hnd
      rw [List.nodup_append] at hnd
      have hdisj : nodeId c ∉ idsOf c' := fun hmem => hnd.2.2 hmem hcm
      have hne : nodeId c' ≠ nodeId c := fun he => hdisj (he ▸ nodeId_mem_idsOf c')
      rw [if_neg hne]
      have hnone : findParent (nodeId c) c' = none := by
        cases hfp : findParent (nodeId c) c' with
        | none => rfl
        | some f => exact absurd (findParent_id_mem _ c' f hfp) hdisj
      rw [hnone]
      exact findParentC_finds rest d c k hnd.2.1 hg

theorem findParentC_descend : ∀ (cs : VChildren) (dOut c0 p : VNode) (k0 : String) (tid : Nat),
    (idsOfC cs).Nodup → getChild cs k0 = some c0 → tid ∈ idsOf c0 → tid ≠ nodeId c0 →
    findParent tid c0 = some p →
    findParentC tid dOut cs = some p
  | .nil, dOut, c0, p, k0, tid => by simp [getChild]
  | .cons k' c' rest, dOut, c0, p, k0, tid => by
    intro hnd hg htid hne hfp
    unfold getChild at hg
    rw [findParentC_cons]
    by_cases hk : k' = k0
    · rw [if_pos hk] at hg
      simp at hg
      subst hg
      rw [if_neg (fun h => hne h.symm), hfp]
    · rw [if_neg hk] at hg
      have htr : tid ∈ idsOfC rest :=
        (idsOfC_sublist rest c0 (getChild_mem_subnodesC rest k0 c0 hg)).subset htid
      unfold idsOfC at hnd
      rw [List.nodup_append] at hnd
      have hdisj : tid ∉ idsOf c' := fun hmem => hnd.2.2 hmem htr
      have hne' : nodeId c' ≠ tid := fun he => hdisj (he ▸ nodeId_mem_idsOf c')
      rw [if_neg hne']
      have hnone : findParent tid c' = none := by
        cases hfp' : findParent tid c' with
        | none => rfl
        | some f => exact absurd (findParent_id_mem _ c' f hfp') hdisj
      rw [hnone]
      exact findParentC_descend rest dOut c0 p k0 tid hnd.2.1 hg htid hne hfp

theorem child_id_facts {c0 d c : VNode} {k : String}
    (hnd : (idsOf c0).Nodup) (hd : d ∈ subnodes c0)
    (hg : getChild (childrenOf d) k = some c) :
    nodeId c ∈ idsOf c0 ∧ nodeId c ≠ nodeId c0 := by
  cases c0 with
  | file i nm co t =>
    simp [subnodes] at hd
    subst hd
    simp [childrenOf, getChild] at hg
  | dir i0 nm0 cs0 =>
    have hcsub : c ∈ subnodesC cs0 := by
      rw [mem_subnodes_dir] at hd
      rcases hd with hd | hd
      · subst hd
        exact getChild_mem_subnodesC cs0 k c hg
      · exact subnodesC_trans cs0 d c (child_mem_subnodes hg) hd
    have hidc : nodeId c ∈ idsOfC cs0 := by
      rw [idsOfC_eq_map]
      exact List.mem_map_of_mem nodeId hcsub
    refine ⟨by simp [idsOf]; exact Or.inr hidc, ?_⟩
    unfold idsOf at hnd
    rw [List.nodup_cons] at hnd
    intro he
    rw [nodeId] at he
    exact hnd.1 (he ▸ hidc)

/-- The central parent-search lemma: in a tree with globally distinct ids,
`findParent` applied to (the id of) a child `c` of the directory `d` at path
`ps` returns exactly `d`. -/
theorem findParent_correct : ∀ (ps : List String) (r d c : VNode) (k : String),
    (idsOf r).Nodup → nodeAt r ps = some d → getChild (childrenOf d) k = some c →
    findParent (nodeId c) r = some d := by
  intro ps
  induction ps with
  | nil =>
    intro r d c k hnd hat hg
    simp [nodeAt] at hat
    subst hat
    cases r with
    | file i nm co t => simp [childrenOf, getChild] at hg
    | dir i nm cs =>
      unfold findParent
      apply findParentC_finds cs _ c k ?_ hg
      unfold idsOf at hnd
      rw [List.nodup_cons] at hnd
      exact hnd.2
  | cons k0 ps' ih =>
    intro r d c k hnd hat hg
    cases r with
    | file i nm co t => simp [nodeAt] at hat
    | dir i nm cs =>
      unfold nodeAt at hat
      cases hg0 : getChild cs k0 with
      | none => rw [hg0] at hat; simp at hat
      | some c0 =>
        rw [hg0] at hat
        have hc0mem : c0 ∈ subnodes (VNode.dir i nm cs) := by
          rw [mem_subnodes_dir]
          exact Or.inr (getChild_mem_subnodesC cs k0 c0 hg0)
        have hnd0 : (idsOf c0).Nodup := nodup_idsOf_subnode hnd hc0mem
        have hfp : findParent (nodeId c) c0 = some d := ih c0 d c k hnd0 hat hg
        obtain ⟨htid, hne⟩ := child_id_facts hnd0 (nodeAt_mem ps' c0 d hat) hg
        unfold findParent
        apply findParentC_descend cs _ c0 d k0 (nodeId c) ?_ hg0 htid hne hfp
        unfold idsOf at hnd
        rw [List.nodup_cons] at hnd
        exact hnd.2

/-! ## Path rendering and the full-path loop -/

theorem strData_append (a b : String) : (a ++ b).data = a.data ++ b.data := by
  cases a; cases b; rfl

theorem empty_strAppend (a : String) : "" ++ a = a := by
  cases a with
  | mk da =>
    show String.mk ([] ++ da) = String.mk da
    rw [List.nil_append]

theorem str_ne_empty_of_data {a : String} (h : a.data ≠ []) : a ≠ "" := by
  intro he
  subst he
  exact h rfl

theorem renderSegs_ne_empty (k : String) (r : List String) : renderSegs (k :: r) ≠ "" := by
  apply str_ne_empty_of_data
  show (("/" ++ k) ++ renderSegs r).data ≠ []
  rw [strData_append, strData_append]
  simp

theorem renderSegs_concat : ∀ (qs : List String) (k : String),
    renderSegs (qs ++ [k]) = renderSegs qs ++ ("/" ++ k) := by
  intro qs
  induction qs with
  | nil =>
    intro k
    show "/" ++ k ++ renderSegs [] = renderSegs [] ++ ("/" ++ k)
    rw [show renderSegs [] = "" from rfl, strAppend_empty, empty_strAppend]
  | cons q rest ih =>
    intro k
    show "/" ++ q ++ renderSegs (rest ++ [k]) = "/" ++ q ++ renderSegs rest ++ ("/" ++ k)
    rw [ih k, ← strAppend_assoc]

theorem treeSize_pos : ∀ n : VNode, 1 ≤ treeSize n := by
  intro n
  cases n <;> simp [treeSize]

theorem treeSizeC_child : ∀ (cs : VChildren) (k : String) (c : VNode),
    getChild cs k = some c → treeSize c ≤ treeSizeC cs
  | .nil, k, c => by simp [getChild]
  | .cons k' c' rest, k, c => by
    intro h
    unfold getChild at h
    unfold treeSizeC
    by_cases hk : k' = k
    · rw [if_pos hk] at h
      simp at h
      subst h
      omega
    · rw [if_neg hk] at h
      have := treeSizeC_child rest k c h
      omega

theorem nodeAt_length_lt : ∀ (ps : List String) (r n : VNode),
    nodeAt r ps = some n → ps.length < treeSize r := by
  intro ps
  induction ps with
  | nil =>
    intro r n _
    simp
    exact treeSize_pos r
  | cons k rest ih =>
    intro r n h
    cases r with
    | file i nm c t => simp [nodeAt] at h
    | dir i nm cs =>
      unfold nodeAt at h
      cases hg : getChild cs k with
      | none => rw [hg] at h; simp at h
      | some c =>
        rw [hg] at h
        have h1 := ih c n h
        have h2 := treeSizeC_child cs k c hg
        unfold treeSize
        simp
        omega

theorem nodeAt_single {d n : VNode} {k : String} (h : nodeAt d [k] = some n) :
    getChild (childrenOf d) k = some n := by
  cases d with
  | file i nm c t => simp [nodeAt] at h
  | dir i nm cs =>
    unfold nodeAt at h
    cases hg : getChild cs k with
    | none => rw [hg] at h; simp at h
    | some c =>
      rw [hg] at h
      simp [nodeAt] at h
      subst h
      exact hg

theorem nodeAt_concat_split {r n : VNode} {qs : List String} {k : String}
    (hat : nodeAt r (qs ++ [k]) = some n) :
    ∃ d, nodeAt r qs = some d ∧ getChild (childrenOf d) k = some n := by
  have happ := nodeAt_append qs [k] r
  rw [hat] at happ
  cases hq : nodeAt r qs with
  | none => rw [hq] at happ; simp at happ
  | some d =>
    rw [hq] at happ
    simp at happ
    exact ⟨d, rfl, nodeAt_single happ.symm⟩

theorem nodeAt_concat_id_ne_root {r n : VNode} {qs : List String} {k : String}
    (hids : (idsOf r).Nodup) (hat : nodeAt r (qs ++ [k]) = some n) :
    nodeId n ≠ nodeId r := by
  obtain ⟨d, hd, hgc⟩ := nodeAt_concat_split hat
  exact (child_id_facts hids (nodeAt_mem qs r d hd) hgc).2

theorem nodeAt_last_name {r n : VNode} {qs : List String} {k : String}
    (hok : treeOk r = true) (hat : nodeAt r (qs ++ [k]) = some n) :
    nodeName n = k := by
  obtain ⟨d, hd, hgc⟩ := nodeAt_concat_split hat
  have hdok : treeOk d = true := treeOk_subnode r d hok (nodeAt_mem qs r d hd)
  cases d with
  | file i nm c t => simp [childrenOf, getChild] at hgc
  | dir i nm cs =>
    unfold treeOk at hdok
    simp only [Bool.and_eq_true] at hdok
    exact (childrenOk_getChild cs k n hdok.2 hgc).1

theorem fullPathLoop_renders : ∀ (ps : List String) (root n : VNode) (fuel : Nat) (acc : String),
    (idsOf root).Nodup → treeOk root = true → nodeAt root ps = some n → ps.length ≤ fuel →
    fullPathLoop root fuel (some n) acc = renderSegs ps ++ acc := by
  intro ps
  induction ps using List.reverseRecOn with
  | nil =>
    intro root n fuel acc hids hok hat hlen
    simp [nodeAt] at hat
    subst hat
    rw [show renderSegs [] ++ acc = acc from empty_strAppend acc]
    cases fuel with
    | zero => rfl
    | succ f =>
      unfold fullPathLoop
      rw [if_pos rfl]
  | append_singleton qs k ih =>
    intro root n fuel acc hids hok hat hlen
    have hne := nodeAt_concat_id_ne_root hids hat
    cases fuel with
    | zero => simp at hlen
    | succ f =>
      unfold fullPathLoop
      rw [if_neg hne]
      obtain ⟨d, hd, hgc⟩ := nodeAt_concat_split hat
      have hfp : findParent (nodeId n) root = some d :=
        findParent_correct qs root d n k hids hd hgc
      have hgp : getParent root n = some d := by
        unfold getParent
        rw [if_neg hne, hfp]
      rw [hgp, nodeAt_last_name hok hat]
      have hlen' : qs.length ≤ f := by simp at hlen; omega
      rw [ih root d f ("/" ++ k ++ acc) hids hok hd hlen', renderSegs_concat,
        strAppend_assoc (renderSegs qs) ("/" ++ k) acc, strAppend_assoc "/" k acc]

theorem getFullPath_of_nodeAt (s : VOSState) (q : List String) (n : VNode)
    (hids : (idsOf s.root).Nodup) (hok : treeOk s.root = true)
    (hat : nodeAt s.root q = some n) :
    getFullPath s n = renderAbsPath q := by
  rcases List.eq_nil_or_concat q with hq | ⟨qs, k, hq⟩
  · subst hq
    simp [nodeAt] at hat
    subst hat
    simp [getFullPath, renderAbsPath]
  · rw [List.concat_eq_append] at hq
    subst hq
    have hne := nodeAt_concat_id_ne_root hids hat
    unfold getFullPath
    rw [if_neg hne]
    have hlen : (qs ++ [k]).length ≤ treeSize s.root :=
      le_of_lt (nodeAt_length_lt _ _ _ hat)
    rw [fullPathLoop_renders (qs ++ [k]) s.root n (treeSize s.root) "" hids hok hat hlen,
      strAppend_empty]
    have hne2 : renderSegs (qs ++ [k]) ≠ "" := by
      cases qs with
      | nil => exact renderSegs_ne_empty k []
      | cons q0 qrest => exact renderSegs_ne_empty q0 (qrest ++ [k])
    rw [if_neg hne2]
    cases qs <;> rfl

theorem walkParts_cons (root : VNode) (part : String) (rest : List String) (cur : VNode) :
    walkParts root (part :: rest) cur =
      if part = ".." then
        walkParts root rest (match getParent root cur with | some p => p | none => cur)
      else if part = "." then walkParts root rest cur
      else
        match cur with
        | .dir _ _ cs =>
          (match getChild cs part with
           | some c => walkParts root rest c
           | none => none)
        | .file .. => none := rfl

theorem walkParts_real : ∀ (parts : List String) (root cur : VNode),
    (∀ x ∈ parts, x ≠ "." ∧ x ≠ "..") →
    walkParts root parts cur = nodeAt cur parts := by
  intro parts
  induction parts with
  | nil => intro root cur _; simp [walkParts, nodeAt]
  | cons p rest ih =>
    intro root cur h
    have hp := h p (by simp)
    rw [walkParts_cons]
    rw [if_neg hp.2, if_neg hp.1]
    cases cur with
    | file i nm c t => simp [nodeAt]
    | dir i nm cs =>
      cases hg : getChild cs p with
      | none => simp [hg, nodeAt]
      | some c =>
        simp only [hg, nodeAt]
        exact ih root c (fun x hx => h x (by simp [hx]))

/-! ## C7: full-path round trip -/

/-- C7: for every path `p` composed only of real segment names (no `.` or
`..` segments) that resolves to a node `n`, the parent-link reconstruction
`fullPath(n)` equals the normalised absolute form of `p`: the root renders
as `/`, other nodes as `/`-joined segment names from the root (for a
relative `p`, prefixed by the cwd's segments `cp`).  Stated under the
well-formedness invariant of reachable states (globally distinct ids,
well-formed keys) with the cwd at path `cp`. -/
theorem C7_fullPath_roundtrip (s : VOSState) (p : String) (n cw : VNode) (cp : List String)
    (hids : (idsOf s.root).Nodup)
    (hok : treeOk s.root = true)
    (hcw : nodeAt s.root cp = some cw)
    (hcwid : nodeId cw = s.cwdId)
    (hreal : ∀ x ∈ (splitOnChar '/' p).filter (fun q => q != ""), x ≠ "." ∧ x ≠ "..")
    (hres : resolvePath s p = some n) :
    getFullPath s n =
      renderAbsPath ((if headIs '/' p then [] else cp) ++
        (splitOnChar '/' p).filter (fun q => q != "")) := by
  by_cases hroot : p = "/"
  · subst hroot
    unfold resolvePath at hres
    rw [if_pos rfl] at hres
    simp at hres
    subst hres
    have hsegs : (splitOnChar '/' "/").filter (fun q => q != "") = [] := by decide
    have hhead : headIs '/' "/" = true := by decide
    rw [hsegs, hhead]
    simp [getFullPath, renderAbsPath]
  · unfold resolvePath at hres
    rw [if_neg hroot] at hres
    cases habs : headIs '/' p with
    | true =>
      rw [habs] at hres
      simp only [if_true] at hres
      rw [walkParts_real _ s.root s.root hreal] at hres
      simp only [eq_self_iff_true, if_true, List.nil_append]
      exact getFullPath_of_nodeAt s _ n hids hok hres
    | false =>
      rw [habs] at hres
      have hfind : findById s.cwdId s.root = some cw := by
        rw [← hcwid]
        exact findById_eq hids (nodeAt_mem cp s.root cw hcw)
      have habs' : ¬(headIs '/' p = true) := by rw [habs]; simp
      simp only [Bool.false_eq_true, if_false] at hres
      rw [hfind] at hres
      replace hres : walkParts s.root
          ((splitOnChar '/' p).filter (fun q => q != "")) cw = some n := hres
      rw [walkParts_real _ s.root cw hreal] at hres
      have hat : nodeAt s.root (cp ++ (splitOnChar '/' p).filter (fun q => q != "")) = some n := by
        rw [nodeAt_append, hcw]
        simpa using hres
      simp only [Bool.false_eq_true, if_false]
      exact getFullPath_of_nodeAt s _ n hids hok hat

/-- Evaluation of the round trip at `/C/Users` in the initial layout. -/
theorem C7_fullPath_roundtrip_witness :
    getFullPath initVOS (VNode.dir 2 "Users" VChildren.nil) = "/C/Users" := by
  have h := C7_fullPath_roundtrip initVOS "/C/Users" (VNode.dir 2 "Users" VChildren.nil)
    initVOS.root [] (by decide) (by decide) rfl (by decide) (by decide) (by decide)
  rw [h]
  decide

/-! ## Key and insertion lemmas -/

theorem nodupKeys_iff : ∀ l : List String, nodupKeys l = true ↔ l.Nodup := by
  intro l
  induction l with
  | nil => simp [nodupKeys]
  | cons k r ih =>
    unfold nodupKeys
    rw [List.nodup_cons, Bool.and_eq_true, ← ih]
    simp

theorem getChild_none_not_mem : ∀ (cs : VChildren) (k : String),
    getChild cs k = none → k ∉ keysOf cs
  | .nil, k => by simp [keysOf]
  | .cons k' c r, k => by
    intro h
    unfold getChild at h
    by_cases hk : k' = k
    · rw [if_pos hk] at h
      simp at h
    · rw [if_neg hk] at h
      unfold keysOf
      rw [List.mem_cons]
      rintro (he | he)
      · exact hk he.symm
      · exact getChild_none_not_mem r k h he

theorem keysOf_setChild_absent : ∀ (cs : VChildren) (k : String) (v : VNode),
    getChild cs k = none → keysOf (setChild cs k v) = keysOf cs ++ [k]
  | .nil, k, v => by simp [setChild, keysOf]
  | .cons k' c r, k, v => by
    intro h
    unfold getChild at h
    by_cases hk : k' = k
    · rw [if_pos hk] at h
      simp at h
    · rw [if_neg hk] at h
      unfold setChild
      rw [if_neg hk]
      unfold keysOf
      rw [keysOf_setChild_absent r k v h]
      rfl

theorem idsOfC_setChild_absent : ∀ (cs : VChildren) (k : String) (v : VNode),
    getChild cs k = none → idsOfC (setChild cs k v) = idsOfC cs ++ idsOf v
  | .nil, k, v => by simp [setChild, idsOfC]
  | .cons k' c r, k, v => by
    intro h
    unfold getChild at h
    by_cases hk : k' = k
    · rw [if_pos hk] at h
      simp at h
    · rw [if_neg hk] at h
      unfold setChild
      rw [if_neg hk]
      unfold idsOfC
      rw [idsOfC_setChild_absent r k v h, List.append_assoc]

theorem childrenOk_setChild_absent : ∀ (cs : VChildren) (k : String) (v : VNode),
    getChild cs k = none → childrenOk cs = true → nodeName v = k → treeOk v = true →
    childrenOk (setChild cs k v) = true
  | .nil, k, v => by
    intro _ _ hn ht
    simp [setChild, childrenOk, hn, ht]
  | .cons k' c r, k, v => by
    intro h hok hn ht
    unfold getChild at h
    unfold childrenOk at hok
    simp only [Bool.and_eq_true, beq_iff_eq] at hok
    by_cases hk : k' = k
    · rw [if_pos hk] at h
      simp at h
    · rw [if_neg hk] at h
      unfold setChild
      rw [if_neg hk]
      unfold childrenOk
      simp only [Bool.and_eq_true, beq_iff_eq]
      exact ⟨⟨hok.1.1, hok.1.2⟩, childrenOk_setChild_absent r k v h hok.2 hn ht⟩

theorem nodeName_updateById (tid : Nat) (f : VChildren → VChildren) (n : VNode) :
    nodeName (updateById tid f n) = nodeName n := by
  cases n with
  | file i nm c t => rfl
  | dir i nm cs =>
    unfold updateById
    split <;> rfl

theorem keysOf_updateByIdC : ∀ (tid : Nat) (f : VChildren → VChildren) (cs : VChildren),
    keysOf (updateByIdC tid f cs) = keysOf cs
  | tid, f, .nil => rfl
  | tid, f, .cons k c r => by
    unfold updateByIdC keysOf
    rw [keysOf_updateByIdC tid f r]

mutual
theorem updateById_not_mem : ∀ (tid : Nat) (f : VChildren → VChildren) (n : VNode),
    tid ∉ idsOf n → updateById tid f n = n
  | tid, f, n => by
    intro h
    cases n with
    | file i nm c t => rfl
    | dir i nm cs =>
      unfold updateById
      simp [idsOf] at h
      rw [if_neg (fun he => h.1 he.symm), updateByIdC_not_mem tid f cs h.2]
theorem updateByIdC_not_mem : ∀ (tid : Nat) (f : VChildren → VChildren) (cs : VChildren),
    tid ∉ idsOfC cs → updateByIdC tid f cs = cs
  | tid, f, .nil => by intro _; rfl
  | tid, f, .cons k c r => by
    intro h
    simp [idsOfC] at h
    unfold updateByIdC
    rw [updateById_not_mem tid f c h.1, updateByIdC_not_mem tid f r h.2]
end

theorem getParent_mem {root cur p : VNode} (h : getParent root cur = some p) :
    p ∈ subnodes root := by
  unfold getParent at h
  split at h
  · simp at h
  · exact findParent_mem _ root p h

theorem walkParts_mem_subnodes : ∀ (parts : List String) (root cur n : VNode),
    cur ∈ subnodes root → walkParts root parts cur = some n → n ∈ subnodes root := by
  intro parts
  induction parts with
  | nil =>
    intro root cur n hcur h
    simp [walkParts] at h
    subst h
    exact hcur
  | cons part rest ih =>
    intro root cur n hcur h
    rw [walkParts_cons] at h
    by_cases hdd : part = ".."
    · rw [if_pos hdd] at h
      cases hgp : getParent root cur with
      | some q => rw [hgp] at h; exact ih root q n (getParent_mem hgp) h
      | none => rw [hgp] at h; exact ih root cur n hcur h
    · rw [if_neg hdd] at h
      by_cases hdot : part = "."
      · rw [if_pos hdot] at h
        exact ih root cur n hcur h
      · rw [if_neg hdot] at h
        cases cur with
        | file i nm c t => simp at h
        | dir i nm cs =>
          replace h : (match getChild cs part with
            | some c => walkParts root rest c
            | none => none) = some n := h
          cases hg : getChild cs part with
          | none => rw [hg] at h; simp at h
          | some c =>
            rw [hg] at h
            have hc : c ∈ subnodes root :=
              subnodes_trans root (VNode.dir i nm cs) c
                (by rw [mem_subnodes_dir]; exact Or.inr (getChild_mem_subnodesC cs part c hg))
                hcur
            exact ih root c n hc h

theorem resolvePath_mem (s : VOSState) (p : String) (n : VNode)
    (h : resolvePath s p = some n) : n ∈ subnodes s.root := by
  unfold resolvePath at h
  by_cases hp : p = "/"
  · rw [if_pos hp] at h
    simp at h
    subst h
    exact mem_subnodes_self _
  · rw [if_neg hp] at h
    cases habs : headIs '/' p with
    | true =>
      rw [habs] at h
      simp only [if_true] at h
      exact walkParts_mem_subnodes _ s.root s.root n (mem_subnodes_self _) h
    | false =>
      rw [habs] at h
      simp only [Bool.false_eq_true, if_false] at h
      cases hf : findById s.cwdId s.root with
      | none => rw [hf] at h; simp at h
      | some start =>
        rw [hf] at h
        exact walkParts_mem_subnodes _ s.root start n (findById_sound _ _ _ hf).1 h

mutual
theorem updateById_insert : ∀ (r d nu : VNode) (tid : Nat) (k : String),
    (idsOf r).Nodup → treeOk r = true →
    d ∈ subnodes r → nodeId d = tid → getChild (childrenOf d) k = none → isDir d = true →
    nodeName nu = k → treeOk nu = true → (idsOf nu).Nodup →
    (∀ j ∈ idsOf nu, j ∉ idsOf r) →
    treeOk (updateById tid (fun l => setChild l k nu) r) = true ∧
    (idsOf (updateById tid (fun l => setChild l k nu) r)).Nodup ∧
    (∀ j ∈ idsOf (updateById tid (fun l => setChild l k nu) r), j ∈ idsOf r ∨ j ∈ idsOf nu)
  | r, d, nu, tid, k => by
    intro hnd hok hd hdid hchild hdir hname hnuok hnund hfresh
    cases r with
    | file i nm co ty =>
      simp [subnodes] at hd
      subst hd
      simp [isDir] at hdir
    | dir i nm cs =>
      by_cases hi : i = tid
      · have hdr : d = VNode.dir i nm cs := by
          apply eq_of_same_id hnd hd (mem_subnodes_self _)
          rw [hdid, nodeId]
          exact hi.symm
        rw [hdr] at hchild
        replace hchild : getChild cs k = none := hchild
        unfold treeOk at hok
        rw [Bool.and_eq_true] at hok
        unfold updateById
        rw [if_pos hi]
        refine ⟨?_, ?_, ?_⟩
        · unfold treeOk
          rw [Bool.and_eq_true]
          constructor
          · rw [keysOf_setChild_absent cs k nu hchild, nodupKeys_iff, List.nodup_append]
            refine ⟨(nodupKeys_iff _).mp hok.1, List.nodup_singleton k, ?_⟩
            intro a ha hb
            simp at hb
            subst hb
            exact getChild_none_not_mem cs a hchild ha
          · exact childrenOk_setChild_absent cs k nu hchild hok.2 hname hnuok
        · show (idsOf (VNode.dir i nm (setChild cs k nu))).Nodup
          unfold idsOf
          rw [idsOfC_setChild_absent cs k nu hchild, List.nodup_cons, List.nodup_append]
          unfold idsOf at hnd
          rw [List.nodup_cons] at hnd
          refine ⟨?_, hnd.2, hnund, ?_⟩
          · rw [List.mem_append]
            rintro (ha | ha)
            · exact hnd.1 ha
            · have := hfresh i ha
              simp [idsOf] at this
          · intro a ha hb
            have := hfresh a hb
            simp [idsOf] at this
            exact this.2 ha
        · intro j hj
          rw [show idsOf (VNode.dir i nm (setChild cs k nu)) =
              i :: idsOfC (setChild cs k nu) from rfl,
            idsOfC_setChild_absent cs k nu hchild] at hj
          rw [show idsOf (VNode.dir i nm cs) = i :: idsOfC cs from rfl]
          simp only [List.mem_cons, List.mem_append] at hj ⊢
          rcases hj with hj | hj | hj
          · exact Or.inl (Or.inl hj)
          · exact Or.inl (Or.inr hj)
          · exact Or.inr hj
      · have hd' : d ∈ subnodesC cs := by
          rw [mem_subnodes_dir] at hd
          rcases hd with hd | hd
          · exfalso
            apply hi
            rw [← hdid, hd, nodeId]
          · exact hd
        unfold treeOk at hok
        rw [Bool.and_eq_true] at hok
        unfold idsOf at hnd
        rw [List.nodup_cons] at hnd
        have hfresh' : ∀ j ∈ idsOf nu, j ∉ idsOfC cs := by
          intro j hj hmem
          have := hfresh j hj
          simp [idsOf] at this
          exact this.2 hmem
        obtain ⟨qok, qkeys, qnodup, qmem⟩ :=
          updateByIdC_insert cs d nu tid k hnd.2 hok.2 hd' hdid hchild hdir hname hnuok
            hnund hfresh'
        unfold updateById
        rw [if_neg hi]
        refine ⟨?_, ?_, ?_⟩
        · unfold treeOk
          rw [Bool.and_eq_true, qkeys]
          exact ⟨hok.1, qok⟩
        · show (idsOf (VNode.dir i nm (updateByIdC tid (fun l => setChild l k nu) cs))).Nodup
          unfold idsOf
          rw [List.nodup_cons]
          refine ⟨?_, qnodup⟩
          intro hmem
          rcases qmem i hmem with h | h
          · exact hnd.1 h
          · have := hfresh i h
            simp [idsOf] at this
        · intro j hj
          rw [show idsOf (VNode.dir i nm (updateByIdC tid (fun l => setChild l k nu) cs)) =
              i :: idsOfC (updateByIdC tid (fun l => setChild l k nu) cs) from rfl,
            List.mem_cons] at hj
          rw [show idsOf (VNode.dir i nm cs) = i :: idsOfC cs from rfl]
          simp only [List.mem_cons]
          rcases hj with hj | hj
          · exact Or.inl (Or.inl hj)
          · rcases qmem j hj with h | h
            · exact Or.inl (Or.inr h)
            · exact Or.inr h
theorem updateByIdC_insert : ∀ (cs : VChildren) (d nu : VNode) (tid : Nat) (k : String),
    (idsOfC cs).Nodup → childrenOk cs = true →
    d ∈ subnodesC cs → nodeId d = tid → getChild (childrenOf d) k = none → isDir d = true →
    nodeName nu = k → treeOk nu = true → (idsOf nu).Nodup →
    (∀ j ∈ idsOf nu, j ∉ idsOfC cs) →
    childrenOk (updateByIdC tid (fun l => setChild l k nu) cs) = true ∧
    keysOf (updateByIdC tid (fun l => setChild l k nu) cs) = keysOf cs ∧
    (idsOfC (updateByIdC tid (fun l => setChild l k nu) cs)).Nodup ∧
    (∀ j ∈ idsOfC (updateByIdC tid (fun l => setChild l k nu) cs),
      j ∈ idsOfC cs ∨ j ∈ idsOf nu)
  | .nil, d, nu, tid, k => by
    intro _ _ hd
    simp [subnodesC] at hd
  | .cons k' c' rest, d, nu, tid, k => by
    intro hnd hok hd hdid hchild hdir hname hnuok hnund hfresh
    unfold idsOfC at hnd
    rw [List.nodup_append] at hnd
    obtain ⟨h1, h2, hdisj⟩ := hnd
    unfold childrenOk at hok
    simp only [Bool.and_eq_true, beq_iff_eq] at hok
    obtain ⟨⟨hname', hok'⟩, hokr⟩ := hok
    rw [mem_subnodesC_cons] at hd
    have hfreshl : ∀ j ∈ idsOf nu, j ∉ idsOf c' := by
      intro j hj hmem
      apply hfresh j hj
      unfold idsOfC
      rw [List.mem_append]
      exact Or.inl hmem
    have hfreshr : ∀ j ∈ idsOf nu, j ∉ idsOfC rest := by
      intro j hj hmem
      apply hfresh j hj
      unfold idsOfC
      rw [List.mem_append]
      exact Or.inr hmem
    rcases hd with hd | hd
    · have htidc : tid ∈ idsOf c' := hdid ▸ mem_idsOf_of_mem_subnodes hd
      have hrest_eq : updateByIdC tid (fun l => setChild l k nu) rest = rest :=
        updateByIdC_not_mem tid _ rest (hdisj htidc)
      obtain ⟨pok, pnodup, pmem⟩ :=
        updateById_insert c' d nu tid k h1 hok' hd hdid hchild hdir hname hnuok hnund hfreshl
      unfold updateByIdC
      rw [hrest_eq]
      refine ⟨?_, ?_, ?_, ?_⟩
      · unfold childrenOk
        simp only [Bool.and_eq_true, beq_iff_eq]
        exact ⟨⟨(nodeName_updateById tid _ c').trans hname', pok⟩, hokr⟩
      · unfold keysOf
        rfl
      · unfold idsOfC
        rw [List.nodup_append]
        refine ⟨pnodup, h2, ?_⟩
        intro a ha hb
        rcases pmem a ha with h | h
        · exact hdisj h hb
        · exact hfreshr a h hb
      · intro j hj
        unfold idsOfC at hj ⊢
        rw [List.mem_append] at hj ⊢
        rcases hj with hj | hj
        · rcases pmem j hj with h | h
          · exact Or.inl (Or.inl h)
          · exact Or.inr h
        · exact Or.inl (Or.inr hj)
    · have htidr : tid ∈ idsOfC rest := by
        rw [← hdid, idsOfC_eq_map]
        exact List.mem_map_of_mem nodeId hd
      have hce : updateById tid (fun l => setChild l k nu) c' = c' := by
        apply updateById_not_mem
        intro hmem
        exact hdisj hmem htidr
      obtain ⟨qok, qkeys, qnodup, qmem⟩ :=
        updateByIdC_insert rest d nu tid k h2 hokr hd hdid hchild hdir hname hnuok hnund hfreshr
      unfold updateByIdC
      rw [hce]
      refine ⟨?_, ?_, ?_, ?_⟩
      · unfold childrenOk
        simp only [Bool.and_eq_true, beq_iff_eq]
        exact ⟨⟨hname', hok'⟩, qok⟩
      · unfold keysOf
        rw [qkeys]
      · unfold idsOfC
        rw [List.nodup_append]
        refine ⟨h1, qnodup, ?_⟩
        intro a ha hb
        rcases qmem a hb with h | h
        · exact hdisj ha h
        · exact hfreshl a h ha
      · intro j hj
        unfold idsOfC at hj ⊢
        rw [List.mem_append] at hj ⊢
        rcases hj with hj | hj
        · exact Or.inl (Or.inl hj)
        · rcases qmem j hj with h | h
          · exact Or.inl (Or.inr h)
          · exact Or.inr h
end

theorem createFile_inv (s : VOSState) (p c t : String) (h : vosInv s) :
    vosInv (createFile s p c t).1 := by
  obtain ⟨hnd, hok, hbound⟩ := h
  simp only [createFile]
  cases hres : resolvePath s (parentPathOf p) with
  | none => exact show vosInv s from ⟨hnd, hok, hbound⟩
  | some d =>
    cases d with
    | file i nm co ty => exact show vosInv s from ⟨hnd, hok, hbound⟩
    | dir did dnm cs =>
      show vosInv (match getChild cs (lastSegOf p) with
        | some _ => (s, false)
        | none =>
          ({ s with
              root := updateById did
                (fun l => setChild l (lastSegOf p) (VNode.file s.nextId (lastSegOf p) c t))
                s.root,
              nextId := s.nextId + 1 }, true)).1
      cases hg : getChild cs (lastSegOf p) with
      | some x => exact show vosInv s from ⟨hnd, hok, hbound⟩
      | none =>
        show vosInv { s with
          root := updateById did
            (fun l => setChild l (lastSegOf p) (VNode.file s.nextId (lastSegOf p) c t)) s.root,
          nextId := s.nextId + 1 }
        have hdm := resolvePath_mem s _ _ hres
        have hfresh : ∀ j ∈ idsOf (VNode.file s.nextId (lastSegOf p) c t),
            j ∉ idsOf s.root := by
          intro j hj hmem
          rw [show idsOf (VNode.file s.nextId (lastSegOf p) c t) = [s.nextId] from rfl] at hj
          simp at hj
          subst hj
          exact absurd (hbound _ hmem) (by omega)
        obtain ⟨iok, inodup, imem⟩ :=
          updateById_insert s.root (VNode.dir did dnm cs)
            (VNode.file s.nextId (lastSegOf p) c t) did (lastSegOf p)
            hnd hok hdm rfl hg rfl rfl rfl
            (by rw [show idsOf (VNode.file s.nextId (lastSegOf p) c t) = [s.nextId] from rfl]
                exact List.nodup_singleton _)
            hfresh
        refine ⟨inodup, iok, ?_⟩
        intro j hj
        show j < s.nextId + 1
        rcases imem j hj with hm | hm
        · have := hbound j hm
          omega
        · rw [show idsOf (VNode.file s.nextId (lastSegOf p) c t) = [s.nextId] from rfl] at hm
          simp at hm
          omega

theorem createDirectory_inv (s : VOSState) (p : String) (h : vosInv s) :
    vosInv (createDirectory s p).1 := by
  obtain ⟨hnd, hok, hbound⟩ := h
  simp only [createDirectory]
  cases hres : resolvePath s (parentPathOf p) with
  | none => exact show vosInv s from ⟨hnd, hok, hbound⟩
  | some d =>
    cases d with
    | file i nm co ty => exact show vosInv s from ⟨hnd, hok, hbound⟩
    | dir did dnm cs =>
      show vosInv (match getChild cs (if lastSegOf p = "" then p else lastSegOf p) with
        | some _ => (s, false)
        | none =>
          ({ s with
              root := updateById did
                (fun l => setChild l (if lastSegOf p = "" then p else lastSegOf p)
                  (VNode.dir s.nextId (if lastSegOf p = "" then p else lastSegOf p)
                    VChildren.nil))
                s.root,
              nextId := s.nextId + 1 }, true)).1
      cases hg : getChild cs (if lastSegOf p = "" then p else lastSegOf p) with
      | some x => exact show vosInv s from ⟨hnd, hok, hbound⟩
      | none =>
        show vosInv { s with
          root := updateById did
            (fun l => setChild l (if lastSegOf p = "" then p else lastSegOf p)
              (VNode.dir s.nextId (if lastSegOf p = "" then p else lastSegOf p) VChildren.nil))
            s.root,
          nextId := s.nextId + 1 }
        have hdm := resolvePath_mem s _ _ hres
        have hfresh : ∀ j ∈ idsOf (VNode.dir s.nextId
            (if lastSegOf p = "" then p else lastSegOf p) VChildren.nil),
            j ∉ idsOf s.root := by
          intro j hj hmem
          rw [show idsOf (VNode.dir s.nextId
            (if lastSegOf p = "" then p else lastSegOf p) VChildren.nil) = [s.nextId] from rfl] at hj
          simp at hj
          subst hj
          exact absurd (hbound _ hmem) (by omega)
        obtain ⟨iok, inodup, imem⟩ :=
          updateById_insert s.root (VNode.dir did dnm cs)
            (VNode.dir s.nextId (if lastSegOf p = "" then p else lastSegOf p) VChildren.nil)
            did (if lastSegOf p = "" then p else lastSegOf p)
            hnd hok hdm rfl hg rfl rfl rfl
            (by rw [show idsOf (VNode.dir s.nextId
                  (if lastSegOf p = "" then p else lastSegOf p) VChildren.nil) = [s.nextId] from rfl]
                exact List.nodup_singleton _)
            hfresh
        refine ⟨inodup, iok, ?_⟩
        intro j hj
        show j < s.nextId + 1
        rcases imem j hj with hm | hm
        · have := hbound j hm
          omega
        · rw [show idsOf (VNode.dir s.nextId
            (if lastSegOf p = "" then p else lastSegOf p) VChildren.nil) = [s.nextId] from rfl] at hm
          simp at hm
          omega

theorem vosInv_initVOS : vosInv initVOS := ⟨by decide, by decide, by decide⟩

theorem vosInv_reachable {s : VOSState} (h : ReachableVOS s) : vosInv s := by
  induction h with
  | init => exact vosInv_initVOS
  | mkfile s0 p c t _ ih => exact createFile_inv s0 p c t ih
  | mkdir s0 p _ ih => exact createDirectory_inv s0 p ih

/-! ## C6: names of reachable trees -/

/-- C6 counterexample: the non-emptiness part of the claim fails.
`createFile("/")` on the initial layout succeeds and inserts, under the
empty key of the root, a file whose `name` is the empty string — a node with
an empty name in a reachable state. -/
theorem C6_counterexample :
    ((createFile initVOS "/" "" "text").2 = true ∧
     getChild (childrenOf (createFile initVOS "/" "" "text").1.root) "" =
       some (VNode.file 6 "" "" "text")) ∧
    ReachableVOS (createFile initVOS "/" "" "text").1 :=
  ⟨by decide, ReachableVOS.mkfile initVOS "/" "" "text" ReachableVOS.init⟩

/-- C6 amended: in every state reachable from the initial layout through
`createFile` and `createDirectory`, every directory's keys are pairwise
distinct and every node's `name` equals the key under which its parent
stores it (`treeOk`).  The non-emptiness of names does not hold: `createFile`
on a path whose final segment is empty (a trailing slash, or the empty or
`"/"` path) inserts a node whose name is the empty string. -/
theorem C6_amended (s : VOSState) (h : ReachableVOS s) : treeOk s.root = true :=
  (vosInv_reachable h).2.1

/-- Evaluation of the amended invariant at the constructor state. -/
theorem C6_amended_witness : treeOk initVOS.root = true :=
  C6_amended initVOS ReachableVOS.init
